import Mathlib

/-!
Verification of `biblium` (bibliometric analysis toolkit).

This file shallowly embeds the parts of `utilsbib.py` that the statements
below are about:

* `compute_relation_matrix` (raw relation `Aᵀ·B`, PMI transform,
  normalization dictionary with per-entry `try/except`, Fisher p-values);
* the fractional indicator block of `select_documents`;
* `build_historiograph` (approximate title matching, node `year` attributes);
* `compute_main_path` (condensation + longest path + sorted representative);
* `build_citation_network` (edge construction, pruning, largest component,
  relabelling, unmatched-reference reporting);
* `add_partitions` (batch community detection with per-algorithm
  `try/except`).

Machine floats of the source are idealised as rationals (and reals where a
square root or logarithm occurs); Python strings are modelled as `List Char`
with split/strip/lower translated explicitly so that everything evaluates.
Third-party library calls (`numpy`, `networkx`, `difflib`, `rapidfuzz`,
`scipy.stats.fisher_exact`) are modelled from their documented behaviour,
either as explicit Lean functions or as abstract parameters where only their
interface matters; each such modelling is noted at the definition.
-/

/-! ### Python string primitives, modelled over `List Char` -/

/-- Model of a Python `str` as its list of characters. -/
abbrev PyStr := List Char

/-- Model of Python `str.lower()` (ASCII range, which is what the data uses). -/
def pyLower (s : PyStr) : PyStr := s.map Char.toLower

/-- Model of Python `str.strip()`: drop whitespace from both ends. -/
def pyStrip (s : PyStr) : PyStr :=
  ((s.dropWhile Char.isWhitespace).reverse.dropWhile Char.isWhitespace).reverse

/-- Fuel-driven worker for `pySplit`: scans `s`, breaking at each occurrence
of the (non-empty) separator, accumulating the current chunk reversed. -/
def pySplitAux (sep : PyStr) : Nat → PyStr → PyStr → List PyStr
  | 0, s, cur => [cur.reverse ++ s]
  | _ + 1, [], cur => [cur.reverse]
  | fuel + 1, c :: rest, cur =>
    if sep.isPrefixOf (c :: rest) then
      cur.reverse :: pySplitAux sep fuel (List.drop sep.length (c :: rest)) []
    else
      pySplitAux sep fuel rest (c :: cur)

/-- Model of Python `str.split(sep)` with a non-empty separator. -/
def pySplit (sep s : PyStr) : List PyStr :=
  pySplitAux sep (s.length + 1) s []

/-! ### Document-item matrices and `compute_relation_matrix`

`compute_relation_matrix(df1, df2, ...)` (utilsbib.py) receives one or two
document-item matrices (documents as rows, items as columns).  We embed such
a matrix as an explicit list of document indices, a list of item labels, and
a rational-valued entry function. -/

/-- Shallow embedding of a pandas document-item matrix: rows are documents,
columns are items, entries are (idealised) numbers. -/
structure DIMat (δ ι : Type) where
  docs : List δ
  items : List ι
  val : δ → ι → ℚ

/-- A matrix is a 0/1 indicator matrix on its own index sets. -/
def IsBinary {δ ι : Type} (A : DIMat δ ι) : Prop :=
  ∀ d ∈ A.docs, ∀ i ∈ A.items, A.val d i = 0 ∨ A.val d i = 1

instance {δ ι : Type} [DecidableEq δ] [DecidableEq ι] (A : DIMat δ ι) :
    Decidable (IsBinary A) := by
  unfold IsBinary; infer_instance

/-- Embedding of `relation = df1.T @ df2`: cell `(i, j)` is the inner
product of column `i` of `df1` with column `j` of `df2` over the documents
(the two frames share their document index when the function is used). -/
def relationM {δ ι κ : Type} (A : DIMat δ ι) (B : DIMat δ κ) (i : ι) (j : κ) : ℚ :=
  (A.docs.map (fun d => A.val d i * B.val d j)).sum

/-- Embedding of `row_sums = df1.sum(axis=0)` (column totals of `df1`). -/
def rowSums {δ ι : Type} (A : DIMat δ ι) (i : ι) : ℚ :=
  (A.docs.map (fun d => A.val d i)).sum

/-- Embedding of `col_sums = df2.sum(axis=0)` (column totals of `df2`). -/
def colSums {δ κ : Type} (B : DIMat δ κ) (j : κ) : ℚ :=
  (B.docs.map (fun d => B.val d j)).sum

/-- Number of documents whose row holds a `1` in both designated columns;
this is the reference value the raw relation matrix is claimed to equal on
binary inputs. -/
def countBoth {δ ι κ : Type} [DecidableEq δ] (A : DIMat δ ι) (B : DIMat δ κ)
    (i : ι) (j : κ) : Nat :=
  (A.docs.filter (fun d => A.val d i = 1 ∧ B.val d j = 1)).length

/-- Number of documents containing item `i`: the single-item document
frequency. -/
def docFreq {δ ι : Type} [DecidableEq δ] (A : DIMat δ ι) (i : ι) : Nat :=
  (A.docs.filter (fun d => A.val d i = 1)).length

/-- Embedding of `df1.equals(df2)` as used by the PMI guard: same document
index, same columns, same values. -/
def dimatEq {δ ι : Type} [DecidableEq δ] [DecidableEq ι] (A B : DIMat δ ι) : Prop :=
  A.docs = B.docs ∧ A.items = B.items ∧
    ∀ d ∈ A.docs, ∀ i ∈ A.items, A.val d i = B.val d i

instance {δ ι : Type} [DecidableEq δ] [DecidableEq ι] (A B : DIMat δ ι) :
    Decidable (dimatEq A B) := by
  unfold dimatEq; infer_instance

/-- Grand total `relation.values.sum()` of the raw relation matrix. -/
def relationTotal {δ ι : Type} (A B : DIMat δ ι) : ℚ :=
  (A.items.map (fun i => (B.items.map (fun j => relationM A B i j)).sum)).sum

/-- Embedding of the PMI transform of `compute_relation_matrix` (the branch
under `if pmi:`), parametric in the logarithm `lg` (modelling `np.log`):
`Pi = diag/total` and `Pij = relation/total` floored at `eps`, then
`log(Pij/(Pi·Pj))` with negative entries truncated to `0`. -/
def pmiMatrix {δ ι : Type} (lg : ℚ → ℚ) (A B : DIMat δ ι) (eps : ℚ)
    (i j : ι) : ℚ :=
  let total := relationTotal A B
  let pI := max (relationM A B i i / total) eps
  let pJ := max (relationM A B j j / total) eps
  let pIJ := max (relationM A B i j / total) eps
  let v := lg (pIJ / (pI * pJ))
  if v < 0 then 0 else v

/-- Embedding of the top of `compute_relation_matrix` (after the optional
TF-IDF step, with `pmi` as flag): `df2 = df1` when absent, the raw relation
is `df1.T @ df2`, and PMI fails fast unless `df1.equals(df2)`.  The Python
`raise ValueError` is modelled by `Except.error`. -/
def computeRelationMatrix {δ ι : Type} [DecidableEq δ] [DecidableEq ι]
    (lg : ℚ → ℚ) (A : DIMat δ ι) (B? : Option (DIMat δ ι)) (pmi : Bool)
    (eps : ℚ) : Except String (ι → ι → ℚ) :=
  let B := B?.getD A
  if pmi then
    if ¬ dimatEq A B then
      Except.error "PMI can only be applied to co-occurrence matrices (df2 must be None or df1)."
    else
      Except.ok (pmiMatrix lg A B eps)
  else
    Except.ok (relationM A B)

/-! ### Normalizations (the `if normalization:` block) -/

/-- Association normalization `R / (row_sums·col_sums + eps)`. -/
def assocM {δ ι κ : Type} (A : DIMat δ ι) (B : DIMat δ κ) (eps : ℚ)
    (i : ι) (j : κ) : ℚ :=
  relationM A B i j / (rowSums A i * colSums B j + eps)

/-- Inclusion normalization `R / (min(row_sums, col_sums) + eps)`. -/
def inclM {δ ι κ : Type} (A : DIMat δ ι) (B : DIMat δ κ) (eps : ℚ)
    (i : ι) (j : κ) : ℚ :=
  relationM A B i j / (min (rowSums A i) (colSums B j) + eps)

/-- Salton (cosine) normalization `R / (sqrt(row_sums·col_sums) + eps)`;
the square root forces real values. -/
noncomputable def saltonM {δ ι κ : Type} (A : DIMat δ ι) (B : DIMat δ κ)
    (eps : ℚ) (i : ι) (j : κ) : ℝ :=
  (relationM A B i j : ℝ) / (Real.sqrt ((rowSums A i : ℝ) * (colSums B j : ℝ)) + (eps : ℝ))

/-- Jaccard normalization `R / (row_sums + col_sums − R + eps)`. -/
def jaccardM {δ ι κ : Type} (A : DIMat δ ι) (B : DIMat δ κ) (eps : ℚ)
    (i : ι) (j : κ) : ℚ :=
  relationM A B i j / (rowSums A i + colSums B j - relationM A B i j + eps)

/-- Equivalence normalization `R² / (row_sums·col_sums + eps)`. -/
def equivM {δ ι κ : Type} (A : DIMat δ ι) (B : DIMat δ κ) (eps : ℚ)
    (i : ι) (j : κ) : ℚ :=
  relationM A B i j ^ 2 / (rowSums A i * colSums B j + eps)

/-- Contingency cell `a` of the Yule / Fisher block: `a = R[i,j]`. -/
def cellA {δ ι κ : Type} (A : DIMat δ ι) (B : DIMat δ κ) (i : ι) (j : κ) : ℚ :=
  relationM A B i j

/-- Contingency cell `b = row_sums − R`. -/
def cellB {δ ι κ : Type} (A : DIMat δ ι) (B : DIMat δ κ) (i : ι) (j : κ) : ℚ :=
  rowSums A i - relationM A B i j

/-- Contingency cell `c = col_sums − R`. -/
def cellC {δ ι κ : Type} (A : DIMat δ ι) (B : DIMat δ κ) (i : ι) (j : κ) : ℚ :=
  colSums B j - relationM A B i j

/-- Contingency cell `d = n_docs − (a + b + c)` where `n_docs = df1.shape[0]`. -/
def cellD {δ ι κ : Type} (A : DIMat δ ι) (B : DIMat δ κ) (i : ι) (j : κ) : ℚ :=
  (A.docs.length : ℚ) - (cellA A B i j + cellB A B i j + cellC A B i j)

/-- Yule's Q `(a·d − b·c) / (a·d + b·c + eps)`. -/
def yuleQM {δ ι κ : Type} (A : DIMat δ ι) (B : DIMat δ κ) (eps : ℚ)
    (i : ι) (j : κ) : ℚ :=
  (cellA A B i j * cellD A B i j - cellB A B i j * cellC A B i j) /
    (cellA A B i j * cellD A B i j + cellB A B i j * cellC A B i j + eps)

/-- Fisher-p matrix with the per-cell `try/except`: `fisher` models
`scipy.stats.fisher_exact` on the 2×2 table `[[a,b],[c,d]]`, returning
`none` when the call raises; a raising cell is assigned `1.0`. -/
def fisherM {δ ι κ : Type} (fisher : ℚ → ℚ → ℚ → ℚ → Option ℚ)
    (A : DIMat δ ι) (B : DIMat δ κ) (i : ι) (j : κ) : ℚ :=
  (fisher (cellA A B i j) (cellB A B i j) (cellC A B i j) (cellD A B i j)).getD 1

/-- Conditional proportion `R / (row_sums + eps)` (the `prop_given_row`
entry of the stacked measures frame). -/
def propRowM {δ ι κ : Type} (A : DIMat δ ι) (B : DIMat δ κ) (eps : ℚ)
    (i : ι) (j : κ) : ℚ :=
  relationM A B i j / (rowSums A i + eps)

/-- Names of the normalization entries, in the order the source fills the
dictionary (association, inclusion, salton, yule_q, fisher_p, jaccard,
equivalence). -/
def normNames : List String :=
  ["association", "inclusion", "salton", "yule_q", "fisher_p", "jaccard", "equivalence"]

/-- Value of the normalization named `n` (all lifted to real-valued
matrices so the Salton entry fits alongside the rational ones). -/
noncomputable def normValue {δ ι κ : Type} (fisher : ℚ → ℚ → ℚ → ℚ → Option ℚ)
    (A : DIMat δ ι) (B : DIMat δ κ) (eps : ℚ) (n : String) : ι → κ → ℝ :=
  fun i j =>
    if n = "association" then (assocM A B eps i j : ℝ)
    else if n = "inclusion" then (inclM A B eps i j : ℝ)
    else if n = "salton" then saltonM A B eps i j
    else if n = "yule_q" then (yuleQM A B eps i j : ℝ)
    else if n = "fisher_p" then (fisherM fisher A B i j : ℝ)
    else if n = "jaccard" then (jaccardM A B eps i j : ℝ)
    else if n = "equivalence" then (equivM A B eps i j : ℝ)
    else 0

/-- Embedding of the `normalized_matrices` dictionary build: seven
independent `try/except` blocks, each inserting its entry only when its
computation does not raise.  `fail n = true` models "the block computing
`n` raised" (an environment event such as a numpy error); the per-cell
Fisher failures are inside `fisherM` and do not make the `fisher_p` block
itself raise. -/
noncomputable def normalizedMatrices {δ ι κ : Type}
    (fail : String → Bool) (fisher : ℚ → ℚ → ℚ → ℚ → Option ℚ)
    (A : DIMat δ ι) (B : DIMat δ κ) (eps : ℚ) :
    List (String × (ι → κ → ℝ)) :=
  (normNames.filter (fun n => ¬ fail n)).map
    (fun n => (n, normValue fisher A B eps n))

/-! ### Fractional indicator block of `select_documents`

Embedding of the `value_type == "list"` fractional-indicator loop: each
non-missing cell is split on the separator, each part stripped, and every
part that is an item of interest receives `1/total` where `total` is the
number of parts of that cell. -/

/-- Parts of a cell: `[v.strip() for v in str(val).split(separator)]`. -/
def pyParts (sep v : PyStr) : List PyStr :=
  (pySplit sep v).map pyStrip

/-- Fractional indicator cell for column `item` of one document row: the
accumulated `+= 1/total` increments of the source loop (`0` for a missing
cell, which the zero-initialised frame keeps at zero). -/
def fracCell (sep : PyStr) (items : List PyStr) (v? : Option PyStr)
    (item : PyStr) : ℚ :=
  match v? with
  | none => 0
  | some v =>
    let ps := pyParts sep v
    ps.foldl (fun acc p => if p ∈ items ∧ p = item then acc + 1 / (ps.length : ℚ) else acc) 0

/-- Row sum of the fractional indicator frame for one document. -/
def fracRowSum (sep : PyStr) (items : List PyStr) (v? : Option PyStr) : ℚ :=
  (items.map (fracCell sep items v?)).sum

/-- A document row has a matched item when some part of its cell is an
item of interest. -/
def HasMatchedItem (sep : PyStr) (items : List PyStr) (v? : Option PyStr) : Prop :=
  ∃ v, v? = some v ∧ ∃ p ∈ pyParts sep v, p ∈ items

instance (sep : PyStr) (items : List PyStr) (v? : Option PyStr) :
    Decidable (HasMatchedItem sep items v?) := by
  unfold HasMatchedItem
  cases v? with
  | none => exact Decidable.isFalse (by simp)
  | some v => exact decidable_of_iff (∃ p ∈ pyParts sep v, p ∈ items) (by simp)

/-! ### `build_historiograph`

The source builds `title_map : lower(title) → title` over all non-missing
titles, then a first pass adds, for every row with a title and a year, an
entry `label_map[lower(title)] = label` and a node `label` with a `year`
attribute, and a second pass adds, for every resolved (cited, citing) label
pair, the edge `(cited_label, citing_label)`.  Python dicts are embedded as
association lists with insert-overwrite; `difflib.get_close_matches` (inside
`approximate_match`) is an abstract parameter `am` whose result, when not
`none`, is a member of the offered key list. -/

/-- Row of the historiograph document table: title, year, short label and
reference string, each possibly missing. -/
structure HRow where
  title : Option PyStr
  year : Option Int
  label : Option PyStr
  refs : Option PyStr

/-- Python-dict insert: overwrite the value if the key is present,
otherwise append the pair. -/
def dictInsert {κ ν : Type} [DecidableEq κ] (d : List (κ × ν)) (k : κ) (v : ν) :
    List (κ × ν) :=
  if k ∈ d.map Prod.fst then d.map (fun e => if e.1 = k then (k, v) else e)
  else d ++ [(k, v)]

/-- Python-dict `get`: value of the first entry with the key. -/
def dictGet {κ ν : Type} [DecidableEq κ] : List (κ × ν) → κ → Option ν
  | [], _ => none
  | e :: t, k => if e.1 = k then some e.2 else dictGet t k

/-- Embedding of `title_map = {title.lower(): title for title in df[title_col].dropna().unique()}`. -/
def titleMapOf (rows : List HRow) : List (PyStr × PyStr) :=
  rows.foldl (fun d r =>
    match r.title with
    | some t => dictInsert d (pyLower t) t
    | none => d) []

/-- One step of the first pass of `build_historiograph`: a row with a
title and a year registers `label_map[lower(title)] = label` and the node
`label` with its `year` attribute. -/
def histStep (s : List (PyStr × PyStr) × List (PyStr × Int)) (r : HRow) :
    List (PyStr × PyStr) × List (PyStr × Int) :=
  match r.title, r.year with
  | some t, some y =>
    let lab := r.label.getD t
    (dictInsert s.1 (pyLower t) lab, dictInsert s.2 lab y)
  | _, _ => s

/-- First pass of `build_historiograph`: builds `label_map` and the node
dictionary `label ↦ year` (the `add_node(label, year=...)` calls; the
`title` and weight attributes it also sets play no role here). -/
def histLoop1 (rows : List HRow) : List (PyStr × PyStr) × List (PyStr × Int) :=
  rows.foldl histStep ([], [])

/-- Embedding of `extract_reference_titles`: split the reference string on
`";"`, strip, drop empties; from each reference keep the third
comma-separated part when there are at least three, else the first. -/
def extractRefTitles (refs? : Option PyStr) : List PyStr :=
  match refs? with
  | none => []
  | some s =>
    (((pySplit [';'] s).map pyStrip).filter (fun r => ¬ r = [])).map (fun ref =>
      let parts := (pySplit [','] ref).map pyStrip
      if 3 ≤ parts.length then parts.getD 2 [] else parts.headD [])

/-- Citing-label resolution of the second pass: a truthy title looked up in
`label_map`, the result required truthy as well. -/
def histCitingLabel (lm : List (PyStr × PyStr)) (r : HRow) : Option PyStr :=
  match r.title with
  | none => none
  | some t =>
    if t = [] then none
    else
      match dictGet lm (pyLower t) with
      | none => none
      | some l => if l = [] then none else some l

/-- Cited-label resolution for one reference-title candidate: approximate
match against the `title_map` keys (the matcher `am` receives the lowered
candidate, as `approximate_match` lowers its argument), then `title_map`
and `label_map` lookups, the label required truthy. -/
def histCitedLabel (am : PyStr → List PyStr → Option PyStr)
    (tm lm : List (PyStr × PyStr)) (rt : PyStr) : Option PyStr :=
  match am (pyLower rt) (tm.map Prod.fst) with
  | none => none
  | some k =>
    match dictGet tm k with
    | none => none
    | some mt =>
      match dictGet lm (pyLower mt) with
      | none => none
      | some l => if l = [] then none else some l

/-- Historiograph graph: node dictionary `label ↦ year` (from `add_node`)
and directed edge list. -/
structure HGraph where
  nodeAttrs : List (PyStr × Int)
  edges : List (PyStr × PyStr)

/-- Nodes of the historiograph: every label given attributes plus every
edge endpoint (networkx `add_edge` creates missing endpoints). -/
def HGraph.nodeList (G : HGraph) : List PyStr :=
  G.nodeAttrs.map Prod.fst ++ G.edges.flatMap (fun e => [e.1, e.2])

/-- One reference-title step of the second pass: a resolved cited label
different from the citing one appends the `(cited, citing)` edge. -/
def histInner (am : PyStr → List PyStr → Option PyStr)
    (tm lm : List (PyStr × PyStr)) (citing : PyStr)
    (acc2 : List (PyStr × PyStr)) (rt : PyStr) : List (PyStr × PyStr) :=
  match histCitedLabel am tm lm rt with
  | none => acc2
  | some cited => if cited = citing then acc2 else acc2 ++ [(cited, citing)]

/-- One row step of the second pass. -/
def histRowStep (am : PyStr → List PyStr → Option PyStr)
    (tm lm : List (PyStr × PyStr)) (acc : List (PyStr × PyStr)) (r : HRow) :
    List (PyStr × PyStr) :=
  match histCitingLabel lm r with
  | none => acc
  | some citing => (extractRefTitles r.refs).foldl (histInner am tm lm citing) acc

/-- Edges of the historiograph. -/
def histEdges (am : PyStr → List PyStr → Option PyStr) (rows : List HRow) :
    List (PyStr × PyStr) :=
  rows.foldl (histRowStep am (titleMapOf rows) (histLoop1 rows).1) []

/-- Embedding of `build_historiograph`: for every row with a resolved
citing label and every extracted reference title with a resolved cited
label different from the citing one, add the edge
`(cited_label, citing_label)`. -/
def buildHistoriograph (am : PyStr → List PyStr → Option PyStr)
    (rows : List HRow) : HGraph :=
  ⟨(histLoop1 rows).2, histEdges am rows⟩

/-- A (cited, citing) pair the second pass matches: some row resolves to
the citing label and one of its reference-title candidates resolves to the
cited label, the two labels distinct. -/
def MatchedPair (am : PyStr → List PyStr → Option PyStr)
    (rows : List HRow) (cited citing : PyStr) : Prop :=
  ∃ r ∈ rows, histCitingLabel (histLoop1 rows).1 r = some citing ∧
    ∃ rt ∈ extractRefTitles r.refs,
      histCitedLabel am (titleMapOf rows) (histLoop1 rows).1 rt = some cited ∧
        cited ≠ citing

/-! ### `compute_main_path`

`compute_main_path` condenses the (possibly cyclic) citation graph with
`networkx.condensation`, takes `networkx.dag_longest_path` of the
condensation, and maps every condensed node to `sorted(members)[0]`.  The
two networkx calls are modelled from their documented behaviour: the
condensation has one node per strongly-connected component (the component's
member list) and an edge between distinct components whenever some original
edge crosses them; the longest path is a path of maximal length (edges
joining consecutive nodes).  Lean totality gives termination outright. -/

/-- Directed graph as an explicit node list and edge list. -/
structure SGraph (α : Type) where
  nodes : List α
  edges : List (α × α)

/-- Successors of `u` along the edge list. -/
def succsOf {α : Type} [DecidableEq α] (edges : List (α × α)) (u : α) : List α :=
  (edges.filter (fun e => e.1 = u)).map Prod.snd

/-- One breadth step of reachability: the accumulated set together with all
successors of its members, deduplicated. -/
def reachStep {α : Type} [DecidableEq α] (edges : List (α × α)) (acc : List α) : List α :=
  (acc ++ acc.flatMap (succsOf edges)).dedup

/-- Iterated reachability expansion. -/
def reachIter {α : Type} [DecidableEq α] (edges : List (α × α)) :
    Nat → List α → List α
  | 0, acc => acc
  | n + 1, acc => reachIter edges n (reachStep edges acc)

/-- Decidable reachability: `v` is reached from `u` after as many expansion
steps as the graph has nodes. -/
def reaches {α : Type} [DecidableEq α] (g : SGraph α) (u v : α) : Prop :=
  v ∈ reachIter g.edges g.nodes.length [u]

instance {α : Type} [DecidableEq α] (g : SGraph α) (u v : α) :
    Decidable (reaches g u v) := by
  unfold reaches; infer_instance

/-- Strongly-connected component of `u` (modelling the `members` attribute
of `networkx.condensation`): the nodes mutually reachable with `u`, in node
order. -/
def sccOf {α : Type} [DecidableEq α] (g : SGraph α) (u : α) : List α :=
  g.nodes.filter (fun v => reaches g u v ∧ reaches g v u)

/-- Condensation of a directed graph: one node per component member list,
and an edge between distinct components whenever an original edge crosses
them. -/
def condensation {α : Type} [DecidableEq α] (g : SGraph α) : SGraph (List α) :=
  { nodes := (g.nodes.map (sccOf g)).dedup
    edges := (g.edges.filterMap (fun e =>
      if sccOf g e.1 = sccOf g e.2 then none else some (sccOf g e.1, sccOf g e.2))).dedup }

/-- All duplicate-free paths starting at `u` whose later nodes avoid
`visited`, of at most `fuel` edges. -/
def pathsFrom {β : Type} [DecidableEq β] (edges : List (β × β)) :
    Nat → β → List β → List (List β)
  | 0, u, _ => [[u]]
  | fuel + 1, u, visited =>
    [u] :: ((succsOf edges u).filter (fun v => ¬ v ∈ visited)).flatMap
      (fun v => (pathsFrom edges fuel v (v :: visited)).map (fun p => u :: p))

/-- All duplicate-free paths of the graph. -/
def allPaths {β : Type} [DecidableEq β] (g : SGraph β) : List (List β) :=
  g.nodes.flatMap (fun u => pathsFrom g.edges g.nodes.length u [u])

/-- Longest path (modelling `networkx.dag_longest_path` with unit weights):
a path of maximal length among all duplicate-free paths, `[]` on an empty
graph. -/
def longestPath {β : Type} [DecidableEq β] (g : SGraph β) : List β :=
  (allPaths g).foldl (fun best p => if best.length < p.length then p else best) []

/-- Model of Python `sorted` (the source takes `sorted(members)[0]`):
insertion sort by the linear order. -/
def pySorted {α : Type} [LinearOrder α] (l : List α) : List α :=
  l.insertionSort (· ≤ ·)

/-- Embedding of `compute_main_path`: the longest path of the condensation,
each component replaced by the head of its sorted member list (the member
list of a reachable component is never empty, so the `filterMap` drops
nothing). -/
def computeMainPath {α : Type} [LinearOrder α] (g : SGraph α) : List α :=
  (longestPath (condensation g)).filterMap (fun members => (pySorted members).head?)

/-! ### `build_citation_network`

The source normalizes every title, walks the reference strings, links each
reference to an exactly-matching normalized title or else to the best
fuzzy-scoring one above the threshold, collects unmatched references per
row, strips self-loops, drops degree-0 nodes, optionally restricts to the
largest weakly-connected component, and relabels integer node ids to the
`Doc ID` column.  `fuzz.partial_ratio` (rapidfuzz) is an abstract score
parameter; the internal `normalize` helper is translated below. -/

/-- Row of the citation-network document table: `Doc ID`, `Title` and the
reference string. -/
structure CRow where
  docId : PyStr
  title : PyStr
  refs : Option PyStr

/-- Embedding of the internal `normalize`: lowercase, turn every
non-alphanumeric character into a space (`re.sub(r"[\W_]+", " ", ...)`),
collapse whitespace runs and strip (`re.sub(r"\s+", " ", ...).strip()`). -/
def normalizeText (s : PyStr) : PyStr :=
  List.intercalate [' ']
    (((pySplit [' '] ((pyLower s).map (fun c => if c.isAlphanum then c else ' '))).filter
      (fun w => ¬ w = [])))

/-- Match one normalized reference against the normalized titles: an exact
hit links to the first occurrence, otherwise the first best fuzzy score is
kept and accepted when it reaches the threshold with a recorded target. -/
def refTarget (score : PyStr → PyStr → Nat) (normTitles : List PyStr)
    (threshold : Nat) (normRef : PyStr) : Option Nat :=
  if normRef ∈ normTitles then
    some (normTitles.indexOf normRef)
  else
    let best := normTitles.enum.foldl
      (fun b je => if b.1 < score normRef je.2 then (score normRef je.2, some je.1) else b)
      ((0 : Nat), (none : Option Nat))
    if threshold ≤ best.1 ∧ best.2.isSome then best.2 else none

/-- One reference step of the edge-construction pass: a matched reference
adds the edge (citing index, target index), an unmatched one is recorded. -/
def citeRefStep (score : PyStr → PyStr → Nat) (normTitles : List PyStr)
    (threshold : Nat) (idx : Nat) (st2 : List (Nat × Nat) × List PyStr)
    (ref : PyStr) : List (Nat × Nat) × List PyStr :=
  match refTarget score normTitles threshold (normalizeText ref) with
  | some tgt => (st2.1 ++ [(idx, tgt)], st2.2)
  | none => (st2.1, st2.2 ++ [ref])

/-- One row step of the edge-construction pass: split the reference string,
process each reference, and record the row's unmatched list if nonempty. -/
def citeRowStep (score : PyStr → PyStr → Nat) (normTitles : List PyStr)
    (threshold : Nat) (st : List (Nat × Nat) × List (Nat × List PyStr))
    (ir : Nat × CRow) : List (Nat × Nat) × List (Nat × List PyStr) :=
  match ir.2.refs with
  | none => st
  | some s =>
    let refList := ((pySplit [';'] s).map pyStrip).filter (fun r => ¬ r = [])
    let inner := refList.foldl (citeRefStep score normTitles threshold ir.1) (st.1, [])
    (inner.1, if inner.2 = [] then st.2 else st.2 ++ [(ir.1, inner.2)])

/-- Edge-construction pass of `build_citation_network`: directed edges from
the citing row index to each matched title index, and the per-row lists of
unmatched reference strings. -/
def citationRaw (score : PyStr → PyStr → Nat) (rows : List CRow)
    (threshold : Nat) : List (Nat × Nat) × List (Nat × List PyStr) :=
  rows.enum.foldl
    (citeRowStep score (rows.map (fun r => normalizeText r.title)) threshold) ([], [])

/-- Symmetrized edge set, for weak connectivity. -/
def symEdges {α : Type} (edges : List (α × α)) : List (α × α) :=
  edges ++ edges.map (fun e => (e.2, e.1))

/-- Weakly-connected component of `v` (modelling
`networkx.weakly_connected_components`): nodes reachable from `v` along
edges taken in both directions. -/
def ucompOf {α : Type} [DecidableEq α] (g : SGraph α) (v : α) : List α :=
  g.nodes.filter (fun w => reaches ⟨g.nodes, symEdges g.edges⟩ v w)

/-- Largest weakly-connected component (modelling
`max(comps, key=len)`, first maximum kept). -/
def largestComp {α : Type} [DecidableEq α] (g : SGraph α) : List α :=
  g.nodes.foldl (fun best v =>
    if best.length < (ucompOf g v).length then ucompOf g v else best) []

/-- Doc ID of row `i`. -/
def docIdOf (rows : List CRow) (i : Nat) : PyStr :=
  ((rows.get? i).map (fun r => r.docId)).getD []

/-- Nodes surviving the prune: every integer node of `range(n)` that still
touches an edge once self-loops are removed. -/
def prunedNodes (n : Nat) (es1 : List (Nat × Nat)) : List Nat :=
  (List.range n).filter (fun v => es1.any (fun e => e.1 = v ∨ e.2 = v))

/-- Edge list after `G.remove_edges_from(nx.selfloop_edges(G))`. -/
def citationEdges1 (score : PyStr → PyStr → Nat) (rows : List CRow)
    (threshold : Nat) : List (Nat × Nat) :=
  (citationRaw score rows threshold).1.filter (fun e => ¬ e.1 = e.2)

/-- Node list after `G.remove_nodes_from(singletons)`. -/
def citationNodes1 (score : PyStr → PyStr → Nat) (rows : List CRow)
    (threshold : Nat) : List Nat :=
  prunedNodes rows.length (citationEdges1 score rows threshold)

/-- Pruned integer-labelled citation graph. -/
def citationG1 (score : PyStr → PyStr → Nat) (rows : List CRow)
    (threshold : Nat) : SGraph Nat :=
  ⟨citationNodes1 score rows threshold, citationEdges1 score rows threshold⟩

/-- Nodes and edges after the optional restriction to the largest
weakly-connected component (`G.subgraph(largest)`). -/
def citationKeep (score : PyStr → PyStr → Nat) (rows : List CRow)
    (threshold : Nat) (largestOnly : Bool) : List Nat × List (Nat × Nat) :=
  if largestOnly ∧ ¬ citationNodes1 score rows threshold = [] then
    ((citationNodes1 score rows threshold).filter
        (fun v => v ∈ largestComp (citationG1 score rows threshold)),
      (citationEdges1 score rows threshold).filter
        (fun e => e.1 ∈ largestComp (citationG1 score rows threshold) ∧
          e.2 ∈ largestComp (citationG1 score rows threshold)))
  else (citationNodes1 score rows threshold, citationEdges1 score rows threshold)

/-- Embedding of `build_citation_network`: returns the relabelled graph and
the unmatched-reference dictionary (whose entries are kept only for rows
still present in the final graph). -/
def buildCitationNetwork (score : PyStr → PyStr → Nat) (rows : List CRow)
    (threshold : Nat) (largestOnly : Bool) :
    SGraph PyStr × List (PyStr × List PyStr) :=
  let keep := citationKeep score rows threshold largestOnly
  let G : SGraph PyStr :=
    ⟨keep.1.map (docIdOf rows), keep.2.map (fun e => (docIdOf rows e.1, docIdOf rows e.2))⟩
  let unmatched := (citationRaw score rows threshold).2.filterMap (fun p =>
    if p.1 ∈ keep.1 then some (docIdOf rows p.1, p.2) else none)
  (G, unmatched)

/-! ### `add_partitions`

Each of the twelve configured community-detection algorithms is attempted
under its own `try/except`: a raising algorithm is skipped, a succeeding
one has its partition recorded and written onto the graph as the node
attribute `partition_<name>`.  The algorithms themselves (networkx /
igraph wrappers) are abstract parameters returning either a partition or
an error. -/

/-- Names of the configured algorithms, in source (dict-insertion) order. -/
def partitionNames : List String :=
  ["walktrap", "edge_betweenness", "infomap", "leading_eigenvector", "leiden",
   "spinglass", "louvain", "greedy_modularity", "label_propagation",
   "girvan_newman", "k_clique", "kernighan_lin"]

/-- Attribute-writing loop `for node, cid in partition.items(): G.nodes[node][...] = cid`:
a node outside the graph raises `KeyError`, aborting the loop while keeping
the writes already done (Python `except` swallows it afterwards). -/
def writeAttrs {ν : Type} [DecidableEq ν] (nodes : List ν) (attrName : String) :
    List (ν × Nat) → List ((ν × String) × Nat) → List ((ν × String) × Nat)
  | [], attrs => attrs
  | (v, cid) :: rest, attrs =>
    if v ∈ nodes then writeAttrs nodes attrName rest (dictInsert attrs (v, attrName) cid)
    else attrs

/-- Embedding of the `for name, (func, kwargs) in configs.items()` loop of
`add_partitions`: returns the success dictionary and the node-attribute
store. -/
def addPartitions {ν : Type} [DecidableEq ν]
    (configs : List (String × (SGraph ν → Except Unit (List (ν × Nat)))))
    (G : SGraph ν) : List (String × List (ν × Nat)) × List ((ν × String) × Nat) :=
  configs.foldl (fun st cfg =>
    match cfg.2 G with
    | Except.error _ => st
    | Except.ok part =>
      (st.1 ++ [(cfg.1, part)], writeAttrs G.nodes ("partition_" ++ cfg.1) part st.2)) ([], [])

/-- `add_partitions` on the twelve configured algorithms, the algorithm
bodies supplied by `fs`. -/
def addPartitionsBatch {ν : Type} [DecidableEq ν]
    (fs : String → SGraph ν → Except Unit (List (ν × Nat))) (G : SGraph ν) :
    List (String × List (ν × Nat)) × List ((ν × String) × Nat) :=
  addPartitions (partitionNames.map (fun n => (n, fs n))) G

/-! ### Concrete instances used below -/

/-- The 3-document scenario of the specification: doc1={A,B}, doc2={B,C},
doc3={A,B,C} as a binary indicator matrix. -/
def exDF : DIMat Nat Char :=
  ⟨[0, 1, 2], ['A', 'B', 'C'], fun d i =>
    if (d = 0 ∧ (i = 'A' ∨ i = 'B')) ∨ (d = 1 ∧ (i = 'B' ∨ i = 'C')) ∨
        (d = 2 ∧ (i = 'A' ∨ i = 'B' ∨ i = 'C')) then 1 else 0⟩

/-- A single-document matrix distinct from `exDF` (different document
index), for exercising the PMI fail-fast guard. -/
def exDF2 : DIMat Nat Char := ⟨[0], ['A'], fun _ _ => 0⟩

/-- Two-document historiograph table: document `A` («doc a», 2000) and
document `B` («doc b», 2001) whose reference string is exactly «doc a». -/
def exRows3 : List HRow :=
  [⟨some "doc a".toList, some 2000, some "A".toList, none⟩,
   ⟨some "doc b".toList, some 2001, some "B".toList, some "doc a".toList⟩]

/-- Exact-equality matcher: the behaviour of `difflib.get_close_matches`
on a candidate identical to one of the offered strings (similarity 1,
above any cutoff ≤ 1). -/
def exAm (r : PyStr) (ts : List PyStr) : Option PyStr :=
  ts.find? (fun t => t = r)

/-- Three-node graph with a 2-cycle `0 ↔ 1` and the edge `1 → 2`. -/
def exG4 : SGraph Nat := ⟨[0, 1, 2], [(0, 1), (1, 0), (1, 2)]⟩

/-- One-document citation table whose single reference «zzz» matches no
title. -/
def exRows5 : List CRow := [⟨"D1".toList, "T1".toList, some "zzz".toList⟩]

/-- Fuzzy score that never matches anything. -/
def score0 : PyStr → PyStr → Nat := fun _ _ => 0

/-- Citation table of two documents where document 0 cites document 1 by
exact normalized-title match. -/
def exRows5b : List CRow :=
  [⟨"a".toList, "t one".toList, some "t two".toList⟩,
   ⟨"b".toList, "t two".toList, none⟩]

/-- Two-node graph for the partition batch. -/
def exG6 : SGraph Nat := ⟨[0, 1], [(0, 1)]⟩

/-- Algorithm suite in which `spinglass` raises and every other algorithm
returns the all-zero partition. -/
def exFs : String → SGraph Nat → Except Unit (List (Nat × Nat)) :=
  fun n g => if n = "spinglass" then Except.error () else Except.ok (g.nodes.map (fun v => (v, 0)))

/-! ### Helper lemmas on binary column sums -/

/-- Sum of a 0/1-valued map equals the count of its ones. -/
theorem sum_binary_eq_count {δ : Type} [DecidableEq δ] (l : List δ) (f : δ → ℚ)
    (h : ∀ d ∈ l, f d = 0 ∨ f d = 1) :
    (l.map f).sum = ((l.filter (fun d => f d = 1)).length : ℚ) := by
  induction l with
  | nil => simp
  | cons d t ih =>
    have hd := h d (by simp)
    have ht := ih (fun x hx => h x (by simp [hx]))
    rcases hd with hd | hd <;> simp [List.filter_cons, hd, ht, add_comm]

/-- Sum of products of 0/1-valued maps equals the count of common ones. -/
theorem sum_binary_prod_eq_count {δ : Type} [DecidableEq δ] (l : List δ) (f g : δ → ℚ)
    (hf : ∀ d ∈ l, f d = 0 ∨ f d = 1) (hg : ∀ d ∈ l, g d = 0 ∨ g d = 1) :
    (l.map (fun d => f d * g d)).sum
      = ((l.filter (fun d => f d = 1 ∧ g d = 1)).length : ℚ) := by
  induction l with
  | nil => simp
  | cons d t ih =>
    have hfd := hf d (by simp)
    have hgd := hg d (by simp)
    have ht := ih (fun x hx => hf x (by simp [hx])) (fun x hx => hg x (by simp [hx]))
    rcases hfd with hfd | hfd <;> rcases hgd with hgd | hgd <;>
      simp [List.filter_cons, hfd, hgd, ht, add_comm]

/-! ### C1 — raw relation matrix counts co-occurrences -/

/-- C1: for binary indicator matrices over the same documents,
`compute_relation_matrix` returns the raw relation `R = Aᵀ·B`, whose cell
`(i, j)` is the number of documents containing both items; for
self-co-occurrence the matrix is exactly symmetric with the document
frequencies on the diagonal, and the 3-document scenario (doc1={A,B},
doc2={B,C}, doc3={A,B,C}) yields R[A,B]=2, R[B,C]=2, R[A,C]=1, diag(A)=2,
diag(B)=3, diag(C)=2. -/
theorem c1_relation_matrix_counts {δ ι κ : Type} [DecidableEq δ] [DecidableEq ι]
    [DecidableEq κ] (A : DIMat δ ι) (B : DIMat δ κ) (hA : IsBinary A)
    (hB : IsBinary B) (hdocs : B.docs = A.docs) (i : ι) (j : κ)
    (hi : i ∈ A.items) (hj : j ∈ B.items) :
    (∀ lg eps (B' : DIMat δ ι),
        computeRelationMatrix lg A none false eps = Except.ok (relationM A A) ∧
        computeRelationMatrix lg A (some B') false eps = Except.ok (relationM A B')) ∧
    relationM A B i j = (countBoth A B i j : ℚ) ∧
    (∀ i' j' : ι, relationM A A i' j' = relationM A A j' i') ∧
    relationM A A i i = (docFreq A i : ℚ) ∧
    (relationM exDF exDF 'A' 'B' = 2 ∧ relationM exDF exDF 'B' 'C' = 2 ∧
      relationM exDF exDF 'A' 'C' = 1 ∧ relationM exDF exDF 'A' 'A' = 2 ∧
      relationM exDF exDF 'B' 'B' = 3 ∧ relationM exDF exDF 'C' 'C' = 2) := by
  refine ⟨fun lg eps B' => ⟨rfl, rfl⟩, ?_, ?_, ?_, ?_⟩
  · exact sum_binary_prod_eq_count A.docs _ _
      (fun d hd => hA d hd i hi) (fun d hd => hB d (hdocs ▸ hd) j hj)
  · intro i' j'
    unfold relationM
    exact congrArg List.sum (List.map_congr_left (fun d _ => mul_comm _ _))
  · have h := sum_binary_prod_eq_count A.docs (fun d => A.val d i) (fun d => A.val d i)
      (fun d hd => hA d hd i hi) (fun d hd => hA d hd i hi)
    unfold relationM docFreq
    simpa [and_self] using h
  · refine ⟨?_, ?_, ?_, ?_, ?_, ?_⟩ <;> simp +decide [relationM, exDF] <;> norm_num

/-- Witness for C1 at the 3-document scenario matrix. -/
theorem c1_relation_matrix_counts_witness :
    IsBinary exDF ∧ relationM exDF exDF 'A' 'B' = (countBoth exDF exDF 'A' 'B' : ℚ) :=
  ⟨by decide,
    (c1_relation_matrix_counts exDF exDF (by decide) (by decide) rfl 'A' 'B'
      (by decide) (by decide)).2.1⟩

/-! ### C8 — PMI fail-fast and non-negativity -/

/-- Truncation at zero is the same as a `max` with zero. -/
theorem ite_neg_trunc_eq_max (v : ℚ) : (if v < 0 then 0 else v) = max 0 v := by
  rcases lt_or_le v 0 with h | h
  · simp [h, max_eq_left h.le]
  · simp [not_lt.2 h, max_eq_right h]

/-- C8: with `pmi=True` and a second matrix differing from the first,
`compute_relation_matrix` fails fast with a `ValueError`; with `df2`
omitted (or equal), the PMI matrix is returned and each entry is the
truncated-at-zero logarithm of `P(i,j)/(P(i)·P(j))` with all probabilities
floored at `eps` (default `1e-9`), hence non-negative. -/
theorem c8_pmi_fail_fast_nonneg {δ ι : Type} [DecidableEq δ] [DecidableEq ι]
    (lg : ℚ → ℚ) (A B : DIMat δ ι) (eps : ℚ) :
    (¬ dimatEq A B → computeRelationMatrix lg A (some B) true eps =
      Except.error "PMI can only be applied to co-occurrence matrices (df2 must be None or df1).") ∧
    computeRelationMatrix lg A none true eps = Except.ok (pmiMatrix lg A A eps) ∧
    (dimatEq A B → computeRelationMatrix lg A (some B) true eps =
      Except.ok (pmiMatrix lg A B eps)) ∧
    (∀ i j, 0 ≤ pmiMatrix lg A A eps i j ∧
      pmiMatrix lg A A eps i j =
        max 0 (lg (max (relationM A A i j / relationTotal A A) eps /
          (max (relationM A A i i / relationTotal A A) eps *
            max (relationM A A j j / relationTotal A A) eps)))) := by
  refine ⟨fun h => by simp [computeRelationMatrix, h], ?_, fun h => by
    simp [computeRelationMatrix, h], ?_⟩
  · have hAA : dimatEq A A := ⟨rfl, rfl, fun _ _ _ _ => rfl⟩
    simp [computeRelationMatrix, hAA]
  · intro i j
    constructor
    · simp only [pmiMatrix]
      split
      · exact le_refl 0
      · exact le_of_not_lt (by assumption)
    · simp only [pmiMatrix]
      exact ite_neg_trunc_eq_max _

/-- Witness for C8: the guard fires on `exDF` against the different matrix
`exDF2`, and the self-PMI entry at `('A','A')` is non-negative. -/
theorem c8_pmi_fail_fast_nonneg_witness :
    ¬ dimatEq exDF exDF2 ∧
      computeRelationMatrix (fun q => q - 1) exDF (some exDF2) true 1 =
        Except.error "PMI can only be applied to co-occurrence matrices (df2 must be None or df1)." ∧
      0 ≤ pmiMatrix (fun q => q - 1) exDF exDF 1 'A' 'A' :=
  ⟨by decide,
    (c8_pmi_fail_fast_nonneg (fun q => q - 1) exDF exDF2 1).1 (by decide),
    ((c8_pmi_fail_fast_nonneg (fun q => q - 1) exDF exDF2 1).2.2.2 'A' 'A').1⟩

/-! ### C7 — normalization failures are isolated -/

/-- C7: with `normalization=True`, the returned dictionary holds exactly
the normalizations whose own block did not raise — in source order — and
each present entry carries its full formula value, unaffected by any other
block's failure; the call never aborts. -/
theorem c7_normalization_isolation {δ ι κ : Type}
    (fail : String → Bool) (fisher : ℚ → ℚ → ℚ → ℚ → Option ℚ)
    (A : DIMat δ ι) (B : DIMat δ κ) (eps : ℚ) :
    ((normalizedMatrices fail fisher A B eps).map Prod.fst
        = normNames.filter (fun n => ¬ fail n)) ∧
    (∀ n M, (n, M) ∈ normalizedMatrices fail fisher A B eps ↔
      (n ∈ normNames ∧ fail n = false ∧ M = normValue fisher A B eps n)) := by
  constructor
  · rw [normalizedMatrices, List.map_map]
    exact List.map_id _
  · intro n M
    simp only [normalizedMatrices, List.mem_map, List.mem_filter, Prod.mk.injEq]
    constructor
    · rintro ⟨n', ⟨hn', hf⟩, rfl, rfl⟩
      refine ⟨hn', ?_, rfl⟩
      simpa using hf
    · rintro ⟨hn, hf, rfl⟩
      exact ⟨n, ⟨hn, by simpa using hf⟩, rfl, rfl⟩

/-! ### C10 — Fisher per-cell fallback -/

/-- C10: a raising Fisher exact test affects only its own cell, which
falls back to the p-value `1.0`; the `fisher_p` matrix itself is present
whenever its block does not raise, and every cell holds the defined value
`(fisher_exact result).getD 1`. -/
theorem c10_fisher_cell_fallback {δ ι κ : Type}
    (fail : String → Bool) (fisher : ℚ → ℚ → ℚ → ℚ → Option ℚ)
    (A : DIMat δ ι) (B : DIMat δ κ) (eps : ℚ) (i : ι) (j : κ) :
    (fisherM fisher A B i j =
      (fisher (cellA A B i j) (cellB A B i j) (cellC A B i j) (cellD A B i j)).getD 1) ∧
    (fisher (cellA A B i j) (cellB A B i j) (cellC A B i j) (cellD A B i j) = none →
      fisherM fisher A B i j = 1) ∧
    (fail "fisher_p" = false →
      ("fisher_p", normValue fisher A B eps "fisher_p")
        ∈ normalizedMatrices fail fisher A B eps) := by
  refine ⟨rfl, fun h => by simp [fisherM, h], fun h => ?_⟩
  simp only [normalizedMatrices, List.mem_map, List.mem_filter]
  exact ⟨"fisher_p", ⟨by simp [normNames], by simp [h]⟩, rfl⟩

/-- Witness for C10: the everywhere-raising Fisher oracle yields `1.0` in
the cell, and `fisher_p` stays in the dictionary when its block succeeds. -/
theorem c10_fisher_cell_fallback_witness :
    fisherM (fun _ _ _ _ => none) exDF exDF 'A' 'B' = 1 ∧
      ("fisher_p", normValue (fun _ _ _ _ => none) exDF exDF 1 "fisher_p")
        ∈ normalizedMatrices (fun _ => false) (fun _ _ _ _ => none) exDF exDF 1 :=
  ⟨(c10_fisher_cell_fallback (fun _ => false) (fun _ _ _ _ => none)
      exDF exDF 1 'A' 'B').2.1 rfl,
    (c10_fisher_cell_fallback (fun _ => false) (fun _ _ _ _ => none)
      exDF exDF 1 'A' 'B').2.2 rfl⟩

/-! ### C2 — fractional indicator row sums -/

/-- The split worker never produces an empty list of chunks. -/
theorem pySplitAux_ne_nil (sep : PyStr) :
    ∀ (fuel : Nat) (s cur : PyStr), pySplitAux sep fuel s cur ≠ [] := by
  intro fuel
  induction fuel with
  | zero => intro s cur; simp [pySplitAux]
  | succ n ih =>
    intro s cur
    cases s with
    | nil => simp [pySplitAux]
    | cons c rest =>
      rw [pySplitAux]
      split
      · simp
      · exact ih rest (c :: cur)

/-- A cell always has at least one part. -/
theorem pyParts_ne_nil (sep v : PyStr) : pyParts sep v ≠ [] := by
  unfold pyParts pySplit
  simpa using pySplitAux_ne_nil sep (v.length + 1) v []

/-- Accumulating a constant over the matching elements of a list. -/
theorem foldl_ite_add {α : Type} (p : α → Prop) [DecidablePred p] (c : ℚ) :
    ∀ (l : List α) (acc : ℚ),
      l.foldl (fun a x => if p x then a + c else a) acc
        = acc + (l.countP (fun x => p x) : ℚ) * c := by
  intro l
  induction l with
  | nil => simp
  | cons x t ih =>
    intro acc
    by_cases h : p x
    · have hc : (x :: t).countP (fun x => decide (p x))
          = t.countP (fun x => decide (p x)) + 1 := by
        simp [List.countP_cons, h]
      rw [List.foldl_cons, if_pos h, ih, hc]
      push_cast
      ring
    · have hc : (x :: t).countP (fun x => decide (p x))
          = t.countP (fun x => decide (p x)) := by
        simp [List.countP_cons, h]
      rw [List.foldl_cons, if_neg h, ih, hc]

/-- Counting members of a list extended by a fresh head item. -/
theorem countP_mem_cons (a : PyStr) (rest : List PyStr) (ha : a ∉ rest) :
    ∀ ps : List PyStr,
      ps.countP (fun p => p ∈ a :: rest)
        = ps.count a + ps.countP (fun p => p ∈ rest) := by
  intro ps
  induction ps with
  | nil => simp
  | cons q t ih =>
    rw [List.countP_cons, List.countP_cons, List.count_cons, ih]
    by_cases h1 : q = a
    · subst h1
      have h2 : q ∉ rest := ha
      simp [h2]
      omega
    · have e1 : decide (q ∈ a :: rest) = decide (q ∈ rest) := by
        simp [List.mem_cons, h1]
      rw [e1]
      have e2 : (q == a) = false := by simp [h1]
      rw [e2]
      simp
      omega

/-- Summing per-item occurrence counts over duplicate-free items counts the
matched parts. -/
theorem sum_counts_eq_countP (ps : List PyStr) :
    ∀ items : List PyStr, items.Nodup →
      (items.map (fun it => (ps.count it : ℚ))).sum
        = (ps.countP (fun p => p ∈ items) : ℚ) := by
  intro items
  induction items with
  | nil => simp
  | cons a rest ih =>
    intro hnd
    have ha : a ∉ rest := (List.nodup_cons.1 hnd).1
    have h2 := ih (List.nodup_cons.1 hnd).2
    rw [List.map_cons, List.sum_cons, h2, countP_mem_cons a rest ha ps]
    push_cast
    ring

/-- Closed form of one fractional indicator cell. -/
theorem fracCell_some_eq (sep : PyStr) (items : List PyStr) (v item : PyStr) :
    fracCell sep items (some v) item
      = (if item ∈ items then ((pyParts sep v).count item : ℚ) else 0)
          / ((pyParts sep v).length : ℚ) := by
  have hstep : fracCell sep items (some v) item
      = (pyParts sep v).foldl
          (fun acc p => if p ∈ items ∧ p = item
            then acc + 1 / ((pyParts sep v).length : ℚ) else acc) 0 := rfl
  rw [hstep, foldl_ite_add (fun p => p ∈ items ∧ p = item) _ (pyParts sep v) 0,
    zero_add]
  by_cases h : item ∈ items
  · have hcong : (pyParts sep v).countP (fun p => decide (p ∈ items ∧ p = item))
        = (pyParts sep v).countP (fun p => p == item) := by
      apply List.countP_congr
      intro p _
      by_cases hp : p = item <;> simp [hp, h]
    rw [hcong]
    have hcount : (pyParts sep v).countP (fun p => p == item)
        = (pyParts sep v).count item := rfl
    rw [hcount, if_pos h, mul_one_div]
  · have hcong : (pyParts sep v).countP (fun p => decide (p ∈ items ∧ p = item))
        = 0 := by
      rw [List.countP_eq_zero]
      intro p _
      simp only [decide_eq_true_eq, not_and]
      intro hp hpe
      exact h (hpe ▸ hp)
    rw [hcong, if_neg h]
    simp

/-- C2 (amended): the fractional row sum of a document equals the number of
its matched parts divided by its total number of parts; it is `1.0` when
every part is an item of interest and `0` when the document has no matched
item or a missing cell — not `1.0` for every document with at least one
matched item. -/
theorem c2_fractional_row_sums (sep : PyStr) (items : List PyStr)
    (hnd : items.Nodup) :
    fracRowSum sep items none = 0 ∧
    (∀ v, fracRowSum sep items (some v)
        = ((pyParts sep v).countP (fun p => p ∈ items) : ℚ)
            / ((pyParts sep v).length : ℚ)) ∧
    (∀ v, (∀ p ∈ pyParts sep v, p ∈ items) → fracRowSum sep items (some v) = 1) ∧
    (∀ v?, ¬ HasMatchedItem sep items v? → fracRowSum sep items v? = 0) := by
  have hnone : fracRowSum sep items none = 0 := by
    rw [fracRowSum]
    refine List.sum_eq_zero (fun x hx => ?_)
    obtain ⟨it, _, rfl⟩ := List.mem_map.1 hx
    rfl
  have hmain : ∀ v, fracRowSum sep items (some v)
      = ((pyParts sep v).countP (fun p => p ∈ items) : ℚ)
          / ((pyParts sep v).length : ℚ) := by
    intro v
    unfold fracRowSum
    have hcells : items.map (fracCell sep items (some v))
        = items.map (fun it => ((pyParts sep v).count it : ℚ)
            * ((pyParts sep v).length : ℚ)⁻¹) := by
      apply List.map_congr_left
      intro it hit
      rw [fracCell_some_eq, if_pos hit, div_eq_mul_inv]
    rw [hcells, List.sum_map_mul_right, sum_counts_eq_countP _ items hnd,
      div_eq_mul_inv]
  refine ⟨hnone, hmain, ?_, ?_⟩
  · intro v hall
    rw [hmain v]
    have hfil : (pyParts sep v).countP (fun p => p ∈ items)
        = (pyParts sep v).length := by
      rw [List.countP_eq_length]
      intro p hp
      simpa using hall p hp
    rw [hfil]
    have hlen : ((pyParts sep v).length : ℚ) ≠ 0 := by
      have := pyParts_ne_nil sep v
      simpa [List.length_eq_zero] using this
    exact div_self hlen
  · intro v? hno
    cases v? with
    | none => exact hnone
    | some v =>
      rw [hmain v]
      have hfil : (pyParts sep v).countP (fun p => p ∈ items) = 0 := by
        rw [List.countP_eq_zero]
        intro p hp
        simp only [decide_eq_true_eq]
        intro hmem
        exact hno ⟨v, rfl, p, hp, hmem⟩
      rw [hfil]
      simp

/-- Counterexample for C2 as stated: the document «A; D» has the matched
item `A` but fractional row sum `1/2`, not `1.0`. -/
theorem c2_fractional_row_sums_counterexample :
    HasMatchedItem "; ".toList [['A']] (some "A; D".toList) ∧
      fracRowSum "; ".toList [['A']] (some "A; D".toList) ≠ 1 := by
  constructor
  · exact ⟨"A; D".toList, rfl, ['A'], by decide, by decide⟩
  · have hcell := fracCell_some_eq "; ".toList [['A']] "A; D".toList ['A']
    have hparts : pyParts "; ".toList "A; D".toList = [['A'], ['D']] := by decide
    rw [hparts] at hcell
    have hcount : List.count ['A'] ([['A'], ['D']] : List PyStr) = 1 := by decide
    have hmem : (['A'] : PyStr) ∈ ([['A']] : List PyStr) := by decide
    rw [if_pos hmem, hcount] at hcell
    unfold fracRowSum
    rw [List.map_cons, List.map_nil, List.sum_cons, List.sum_nil, hcell]
    norm_num

/-- Witness for C2 at a fully matched document «A; B». -/
theorem c2_fractional_row_sums_witness :
    ([['A'], ['B']] : List PyStr).Nodup ∧
      fracRowSum "; ".toList [['A'], ['B']] (some "A; B".toList) = 1 :=
  ⟨by decide,
    (c2_fractional_row_sums "; ".toList [['A'], ['B']] (by decide)).2.2.1
      "A; B".toList (by decide)⟩

/-! ### C9 — normalization bounds on binary inputs -/

/-- Nonnegative summands give a nonnegative sum. -/
theorem sum_map_nonneg {δ : Type} (l : List δ) (f : δ → ℚ)
    (h : ∀ d ∈ l, 0 ≤ f d) : 0 ≤ (l.map f).sum := by
  refine List.sum_nonneg (fun x hx => ?_)
  obtain ⟨d, hd, rfl⟩ := List.mem_map.1 hx
  exact h d hd

/-- Cauchy-style bound: a sum of products of nonnegative maps is at most
the product of the sums. -/
theorem sum_prod_le_prod_sum {δ : Type} (l : List δ) (f g : δ → ℚ)
    (hf : ∀ d ∈ l, 0 ≤ f d) (hg : ∀ d ∈ l, 0 ≤ g d) :
    (l.map (fun d => f d * g d)).sum ≤ (l.map f).sum * (l.map g).sum := by
  calc (l.map (fun d => f d * g d)).sum
      ≤ (l.map (fun d => f d * (l.map g).sum)).sum := by
        refine List.sum_le_sum (fun d hd => ?_)
        refine mul_le_mul_of_nonneg_left ?_ (hf d hd)
        exact List.single_le_sum
          (fun x hx => by
            obtain ⟨e, he, rfl⟩ := List.mem_map.1 hx
            exact hg e he) _ (List.mem_map_of_mem g hd)
    _ = (l.map f).sum * (l.map g).sum := List.sum_map_mul_right l f _

/-- Complement identity behind the contingency cell `d`. -/
theorem sum_compl_prod {δ : Type} (l : List δ) (f g : δ → ℚ) :
    (l.map (fun d => (1 - f d) * (1 - g d))).sum
      = (l.length : ℚ) - (l.map f).sum - (l.map g).sum
          + (l.map (fun d => f d * g d)).sum := by
  induction l with
  | nil => simp
  | cons d t ih =>
    simp only [List.map_cons, List.sum_cons, List.length_cons, ih]
    push_cast
    ring

/-- C9: on binary indicator matrices over the same documents, every entry
of the jaccard, salton, association, inclusion and equivalence
normalizations lies in `[0, 1]`, and every Yule's Q entry lies in
`[−1, 1]`, thanks to the `+eps` denominator guards. -/
theorem c9_normalization_bounds {δ ι κ : Type}
    (A : DIMat δ ι) (B : DIMat δ κ) (hA : IsBinary A) (hB : IsBinary B)
    (hdocs : B.docs = A.docs) (i : ι) (j : κ) (hi : i ∈ A.items)
    (hj : j ∈ B.items) (eps : ℚ) (heps : 0 < eps) :
    (0 ≤ jaccardM A B eps i j ∧ jaccardM A B eps i j ≤ 1) ∧
    (0 ≤ saltonM A B eps i j ∧ saltonM A B eps i j ≤ 1) ∧
    (0 ≤ assocM A B eps i j ∧ assocM A B eps i j ≤ 1) ∧
    (0 ≤ inclM A B eps i j ∧ inclM A B eps i j ≤ 1) ∧
    (0 ≤ equivM A B eps i j ∧ equivM A B eps i j ≤ 1) ∧
    (-1 ≤ yuleQM A B eps i j ∧ yuleQM A B eps i j ≤ 1) := by
  have hfA : ∀ d ∈ A.docs, 0 ≤ A.val d i ∧ A.val d i ≤ 1 := by
    intro d hd
    rcases hA d hd i hi with h | h <;> rw [h] <;> exact ⟨by norm_num, by norm_num⟩
  have hgB : ∀ d ∈ A.docs, 0 ≤ B.val d j ∧ B.val d j ≤ 1 := by
    intro d hd
    rcases hB d (hdocs ▸ hd) j hj with h | h <;> rw [h] <;>
      exact ⟨by norm_num, by norm_num⟩
  have hcs' : colSums B j = (A.docs.map (fun d => B.val d j)).sum := by
    rw [colSums, hdocs]
  have hR0 : 0 ≤ relationM A B i j :=
    sum_map_nonneg _ _ (fun d hd => mul_nonneg (hfA d hd).1 (hgB d hd).1)
  have hRrs : relationM A B i j ≤ rowSums A i :=
    List.sum_le_sum (fun d hd => mul_le_of_le_one_right (hfA d hd).1 (hgB d hd).2)
  have hRcs : relationM A B i j ≤ colSums B j := by
    rw [hcs']
    exact List.sum_le_sum (fun d hd => mul_le_of_le_one_left (hgB d hd).1 (hfA d hd).2)
  have hrs0 : 0 ≤ rowSums A i := sum_map_nonneg _ _ (fun d hd => (hfA d hd).1)
  have hcs0 : 0 ≤ colSums B j := by
    rw [hcs']
    exact sum_map_nonneg _ _ (fun d hd => (hgB d hd).1)
  have hRprod : relationM A B i j ≤ rowSums A i * colSums B j := by
    rw [hcs']
    exact sum_prod_le_prod_sum A.docs _ _ (fun d hd => (hfA d hd).1)
      (fun d hd => (hgB d hd).1)
  have hD0 : 0 ≤ cellD A B i j := by
    have hident : cellD A B i j
        = (A.docs.map (fun d => (1 - A.val d i) * (1 - B.val d j))).sum := by
      rw [sum_compl_prod]
      simp only [cellD, cellA, cellB, cellC, relationM, rowSums, hcs']
      ring
    rw [hident]
    exact sum_map_nonneg _ _ (fun d hd =>
      mul_nonneg (by linarith [(hfA d hd).2]) (by linarith [(hgB d hd).2]))
  have hb0 : 0 ≤ cellB A B i j := by simp only [cellB]; linarith
  have hc0 : 0 ≤ cellC A B i j := by simp only [cellC]; linarith
  have ha0 : 0 ≤ cellA A B i j := hR0
  refine ⟨⟨?_, ?_⟩, ⟨?_, ?_⟩, ⟨?_, ?_⟩, ⟨?_, ?_⟩, ⟨?_, ?_⟩, ⟨?_, ?_⟩⟩
  · exact div_nonneg hR0 (by linarith)
  · rw [jaccardM]
    rw [div_le_one (by linarith)]
    linarith
  · refine div_nonneg (by exact_mod_cast hR0) ?_
    have := Real.sqrt_nonneg ((rowSums A i : ℝ) * (colSums B j : ℝ))
    have heps' : (0 : ℝ) < (eps : ℝ) := by exact_mod_cast heps
    linarith
  · rw [saltonM]
    have heps' : (0 : ℝ) < (eps : ℝ) := by exact_mod_cast heps
    have hsq : (0 : ℝ) ≤ Real.sqrt ((rowSums A i : ℝ) * (colSums B j : ℝ)) :=
      Real.sqrt_nonneg _
    rw [div_le_one (by linarith)]
    have hle : (relationM A B i j : ℝ)
        ≤ Real.sqrt ((rowSums A i : ℝ) * (colSums B j : ℝ)) := by
      rw [Real.le_sqrt (by exact_mod_cast hR0)
        (by have := mul_nonneg hrs0 hcs0; exact_mod_cast this)]
      have : relationM A B i j ^ 2 ≤ rowSums A i * colSums B j := by
        have h1 : relationM A B i j * relationM A B i j
            ≤ rowSums A i * colSums B j := mul_le_mul hRrs hRcs hR0 hrs0
        nlinarith
      exact_mod_cast this
    linarith
  · exact div_nonneg hR0 (by positivity)
  · rw [assocM, div_le_one (by nlinarith)]
    linarith
  · refine div_nonneg hR0 ?_
    have : (0:ℚ) ≤ min (rowSums A i) (colSums B j) := le_min hrs0 hcs0
    linarith
  · rw [inclM, div_le_one (by positivity)]
    have : relationM A B i j ≤ min (rowSums A i) (colSums B j) := le_min hRrs hRcs
    linarith
  · exact div_nonneg (by positivity) (by nlinarith)
  · rw [equivM, div_le_one (by nlinarith)]
    nlinarith
  · rw [yuleQM]
    have hden : (0:ℚ) < cellA A B i j * cellD A B i j
        + cellB A B i j * cellC A B i j + eps := by nlinarith
    rw [le_div_iff₀ hden]
    nlinarith
  · rw [yuleQM, div_le_one (by nlinarith)]
    nlinarith

/-- Witness for C9 at the 3-document scenario matrix with `eps = 1`. -/
theorem c9_normalization_bounds_witness :
    IsBinary exDF ∧ (0:ℚ) < 1 ∧
      (0 ≤ jaccardM exDF exDF 1 'A' 'B' ∧ jaccardM exDF exDF 1 'A' 'B' ≤ 1) :=
  ⟨by decide, by norm_num,
    (c9_normalization_bounds exDF exDF (by decide) (by decide) rfl 'A' 'B'
      (by decide) (by decide) 1 (by norm_num)).1⟩

/-! ### C6 — partition batch resilience -/

/-- Appending to a shared prefix is injective (on the attribute names
`partition_<algorithm>`). -/
theorem string_append_cancel {s a b : String} (h : s ++ a = s ++ b) : a = b := by
  have h2 := congrArg String.data h
  rw [String.data_append, String.data_append] at h2
  have h3 := List.append_cancel_left h2
  cases a
  cases b
  exact congrArg String.mk h3

/-- Looking up the key just inserted. -/
theorem dictGet_insert_self {κ ν : Type} [DecidableEq κ] (d : List (κ × ν))
    (k : κ) (v : ν) : dictGet (dictInsert d k v) k = some v := by
  unfold dictInsert
  by_cases h : k ∈ d.map Prod.fst
  · rw [if_pos h]
    induction d with
    | nil => simp at h
    | cons e t ih =>
      by_cases he : e.1 = k
      · simp [dictGet, he]
      · have ht : k ∈ t.map Prod.fst := by
          rcases List.mem_map.1 h with ⟨p, hp, hpk⟩
          rcases List.mem_cons.1 hp with rfl | hp'
          · exact absurd hpk he
          · exact hpk ▸ List.mem_map_of_mem Prod.fst hp'
        simpa [dictGet, he] using ih ht
  · rw [if_neg h]
    induction d with
    | nil => simp [dictGet]
    | cons e t ih =>
      have he : ¬ e.1 = k := fun hek =>
        h (hek ▸ List.mem_map_of_mem Prod.fst (List.mem_cons_self _ _))
      have ht : k ∉ t.map Prod.fst := fun hkt => by
        rcases List.mem_map.1 hkt with ⟨p, hp, hpk⟩
        exact h (hpk ▸ List.mem_map_of_mem Prod.fst (List.mem_cons_of_mem _ hp))
      simpa [dictGet, he] using ih ht

/-- Rewriting absent keys is the identity on a dictionary. -/
theorem map_ite_keep {κ ν : Type} [DecidableEq κ] (k : κ) (v : ν) :
    ∀ l : List (κ × ν), k ∉ l.map Prod.fst →
      l.map (fun e : κ × ν => if e.1 = k then (k, v) else e) = l := by
  intro l hl
  conv_rhs => rw [← List.map_id l]
  apply List.map_congr_left
  intro p hp
  have : ¬ p.1 = k := fun hpk => hl (hpk ▸ List.mem_map_of_mem Prod.fst hp)
  simp [this]

/-- Inserting one key leaves every other key's lookup unchanged. -/
theorem dictGet_insert_other {κ ν : Type} [DecidableEq κ] (d : List (κ × ν))
    (k k' : κ) (v : ν) (hne : k' ≠ k) :
    dictGet (dictInsert d k v) k' = dictGet d k' := by
  unfold dictInsert
  by_cases h : k ∈ d.map Prod.fst
  · rw [if_pos h]
    induction d with
    | nil => rfl
    | cons e t ih =>
      rw [List.map_cons]
      by_cases he : e.1 = k
      · rw [if_pos he]
        simp only [dictGet]
        have h1 : ¬ ((k, v).1 = k') := Ne.symm hne
        have h2 : ¬ (e.1 = k') := he ▸ (Ne.symm hne)
        rw [if_neg h1, if_neg h2]
        by_cases ht : k ∈ t.map Prod.fst
        · exact ih ht
        · rw [map_ite_keep k v t ht]
      · rw [if_neg he]
        simp only [dictGet]
        by_cases hek' : e.1 = k'
        · rw [if_pos hek', if_pos hek']
        · rw [if_neg hek', if_neg hek']
          by_cases ht : k ∈ t.map Prod.fst
          · exact ih ht
          · rw [map_ite_keep k v t ht]
  · rw [if_neg h]
    induction d with
    | nil => simp [dictGet, Ne.symm hne]
    | cons e t ih =>
      have ht : k ∉ t.map Prod.fst := fun hkt => by
        rcases List.mem_map.1 hkt with ⟨p, hp, hpk⟩
        exact h (hpk ▸ List.mem_map_of_mem Prod.fst (List.mem_cons_of_mem _ hp))
      simp only [List.cons_append, dictGet]
      by_cases hek' : e.1 = k'
      · rw [if_pos hek', if_pos hek']
      · rw [if_neg hek', if_neg hek']
        exact ih ht

/-- Writes to other attribute keys pass through `writeAttrs`. -/
theorem writeAttrs_preserve {ν : Type} [DecidableEq ν] (nodes : List ν)
    (attrName : String) :
    ∀ (part : List (ν × Nat)) (attrs : List ((ν × String) × Nat))
      (key : ν × String), (∀ p ∈ part, (p.1, attrName) ≠ key) →
      dictGet (writeAttrs nodes attrName part attrs) key = dictGet attrs key := by
  intro part
  induction part with
  | nil => intro attrs key _; rfl
  | cons q rest ih =>
    intro attrs key hkey
    obtain ⟨v, cid⟩ := q
    rw [writeAttrs]
    by_cases hv : v ∈ nodes
    · rw [if_pos hv, ih _ key (fun p hp => hkey p (List.mem_cons_of_mem _ hp))]
      exact dictGet_insert_other _ _ _ _
        (fun he => hkey (v, cid) (List.mem_cons_self _ _) he.symm)
    · rw [if_neg hv]

/-- After `writeAttrs` with in-graph, duplicate-free nodes, every written
pair is retrievable. -/
theorem writeAttrs_get {ν : Type} [DecidableEq ν] (nodes : List ν)
    (attrName : String) :
    ∀ (part : List (ν × Nat)) (attrs : List ((ν × String) × Nat)),
      (∀ p ∈ part, p.1 ∈ nodes) → (part.map Prod.fst).Nodup →
      ∀ q ∈ part, dictGet (writeAttrs nodes attrName part attrs)
        (q.1, attrName) = some q.2 := by
  intro part
  induction part with
  | nil => intro _ _ _ q hq; exact absurd hq (List.not_mem_nil q)
  | cons p rest ih =>
    intro attrs hsub hnd q hq
    obtain ⟨v, cid⟩ := p
    rw [writeAttrs, if_pos (hsub (v, cid) (List.mem_cons_self _ _))]
    rcases List.mem_cons.1 hq with rfl | hq'
    · rw [writeAttrs_preserve nodes attrName rest _ ((v, cid).1, attrName) ?_]
      · exact dictGet_insert_self _ _ _
      · intro p hp hkey
        have hv : p.1 = v := congrArg Prod.fst hkey
        have : v ∈ rest.map Prod.fst := hv ▸ List.mem_map_of_mem Prod.fst hp
        exact (List.nodup_cons.1 hnd).1 this
    · exact ih _ (fun p hp => hsub p (List.mem_cons_of_mem _ hp))
        (List.nodup_cons.1 hnd).2 q hq'

/-- Success projection of one configured algorithm. -/
def partSucc {ν : Type} (G : SGraph ν)
    (c : String × (SGraph ν → Except Unit (List (ν × Nat)))) :
    Option (String × List (ν × Nat)) :=
  (c.2 G).toOption.map (fun p => (c.1, p))

/-- The result dictionary of the `add_partitions` loop collects exactly the
successful algorithms, in order, whatever the accumulator. -/
theorem addPartitions_foldl_fst {ν : Type} [DecidableEq ν] (G : SGraph ν) :
    ∀ (configs : List (String × (SGraph ν → Except Unit (List (ν × Nat)))))
      (r : List (String × List (ν × Nat))) (a : List ((ν × String) × Nat)),
      (configs.foldl (fun st cfg =>
        match cfg.2 G with
        | Except.error _ => st
        | Except.ok part =>
          (st.1 ++ [(cfg.1, part)],
            writeAttrs G.nodes ("partition_" ++ cfg.1) part st.2)) (r, a)).1
        = r ++ configs.filterMap (partSucc G) := by
  intro configs
  induction configs with
  | nil => intro r a; simp
  | cons c t ih =>
    intro r a
    rw [List.foldl_cons, List.filterMap_cons]
    cases hc : c.2 G with
    | error e => simpa [hc, partSucc] using ih r a
    | ok part => simpa [hc, partSucc] using ih (r ++ [(c.1, part)]) _

/-- Later loop iterations never touch attribute keys of algorithms outside
the remaining configuration list. -/
theorem addPartitions_foldl_attrs_preserve {ν : Type} [DecidableEq ν] (G : SGraph ν) :
    ∀ (configs : List (String × (SGraph ν → Except Unit (List (ν × Nat)))))
      (r : List (String × List (ν × Nat))) (a : List ((ν × String) × Nat))
      (key : ν × String),
      (∀ c ∈ configs, ∀ v : ν, ((v, "partition_" ++ c.1) : ν × String) ≠ key) →
      dictGet (configs.foldl (fun st cfg =>
        match cfg.2 G with
        | Except.error _ => st
        | Except.ok part =>
          (st.1 ++ [(cfg.1, part)],
            writeAttrs G.nodes ("partition_" ++ cfg.1) part st.2)) (r, a)).2 key
        = dictGet a key := by
  intro configs
  induction configs with
  | nil => intro r a key _; rfl
  | cons c t ih =>
    intro r a key hkey
    rw [List.foldl_cons]
    cases hc : c.2 G with
    | error e =>
      simp only [hc]
      exact ih r a key (fun c' hc' => hkey c' (List.mem_cons_of_mem _ hc'))
    | ok part =>
      simp only [hc]
      rw [ih _ _ key (fun c' hc' => hkey c' (List.mem_cons_of_mem _ hc'))]
      exact writeAttrs_preserve G.nodes _ part a key
        (fun p _ => hkey c (List.mem_cons_self _ _) p.1)

/-- Every successful algorithm's partition is written onto the graph by the
loop, provided algorithm names are distinct and partitions map in-graph
nodes without duplicates. -/
theorem addPartitions_foldl_attrs {ν : Type} [DecidableEq ν] (G : SGraph ν) :
    ∀ (configs : List (String × (SGraph ν → Except Unit (List (ν × Nat)))))
      (r : List (String × List (ν × Nat))) (a : List ((ν × String) × Nat)),
      (configs.map Prod.fst).Nodup →
      (∀ c ∈ configs, ∀ p, c.2 G = Except.ok p →
        (∀ q ∈ p, q.1 ∈ G.nodes) ∧ (p.map Prod.fst).Nodup) →
      ∀ n part, (n, part) ∈ configs.filterMap (partSucc G) → ∀ q ∈ part,
        dictGet (configs.foldl (fun st cfg =>
          match cfg.2 G with
          | Except.error _ => st
          | Except.ok part =>
            (st.1 ++ [(cfg.1, part)],
              writeAttrs G.nodes ("partition_" ++ cfg.1) part st.2)) (r, a)).2
          (q.1, "partition_" ++ n) = some q.2 := by
  intro configs
  induction configs with
  | nil => intro r a _ _ n part hmem; simp [partSucc] at hmem
  | cons c t ih =>
    intro r a hnames hdom n part hmem q hq
    rw [List.foldl_cons]
    rw [List.filterMap_cons] at hmem
    cases hc : c.2 G with
    | error e =>
      simp only [hc]
      simp only [partSucc, hc, Except.toOption] at hmem
      exact ih r a (List.nodup_cons.1 hnames).2
        (fun c' hc' => hdom c' (List.mem_cons_of_mem _ hc')) n part hmem q hq
    | ok p =>
      simp only [hc]
      simp only [partSucc, hc, Except.toOption] at hmem
      rcases List.mem_cons.1 hmem with hhead | htail
      · have h1 : n = c.1 := congrArg Prod.fst hhead
        have h2 : part = p := congrArg Prod.snd hhead
        subst h1
        subst h2
        rw [addPartitions_foldl_attrs_preserve G t _ _ _ ?_]
        · exact writeAttrs_get G.nodes _ part a
            (hdom c (List.mem_cons_self _ _) part hc).1
            (hdom c (List.mem_cons_self _ _) part hc).2 q hq
        · intro c' hc' v hkey
          have hattr : "partition_" ++ c'.1 = "partition_" ++ c.1 :=
            congrArg Prod.snd hkey
          have hname : c'.1 = c.1 := string_append_cancel hattr
          exact (List.nodup_cons.1 hnames).1
            (hname ▸ List.mem_map_of_mem Prod.fst hc')
      · exact ih _ _ (List.nodup_cons.1 hnames).2
          (fun c' hc' => hdom c' (List.mem_cons_of_mem _ hc')) n part htail q hq

/-- C6: `add_partitions` attempts every configured algorithm independently;
a raising algorithm is silently skipped, the returned dictionary holds
exactly the algorithms that succeeded, and every node of a successful
partition receives the `partition_<algorithm>` attribute with its
community id. -/
theorem c6_partition_batch {ν : Type} [DecidableEq ν]
    (fs : String → SGraph ν → Except Unit (List (ν × Nat))) (G : SGraph ν)
    (hdom : ∀ n part, fs n G = Except.ok part → ∀ q ∈ part, q.1 ∈ G.nodes)
    (hnd : ∀ n part, fs n G = Except.ok part → (part.map Prod.fst).Nodup) :
    (addPartitionsBatch fs G).1
        = (partitionNames.map (fun n => (n, fs n))).filterMap (partSucc G) ∧
    (∀ n part, (n, part) ∈ (addPartitionsBatch fs G).1 ↔
      n ∈ partitionNames ∧ fs n G = Except.ok part) ∧
    (∀ n part, (n, part) ∈ (addPartitionsBatch fs G).1 → ∀ q ∈ part,
      dictGet (addPartitionsBatch fs G).2 (q.1, "partition_" ++ n) = some q.2) := by
  have h1 : (addPartitionsBatch fs G).1
      = (partitionNames.map (fun n => (n, fs n))).filterMap (partSucc G) := by
    rw [addPartitionsBatch, addPartitions]
    simpa using addPartitions_foldl_fst G (partitionNames.map (fun n => (n, fs n))) [] []
  have hnames : (((partitionNames.map (fun n => (n, fs n))).map Prod.fst)).Nodup := by
    rw [List.map_map]
    simpa [Function.comp] using (by decide : partitionNames.Nodup)
  have hdom' : ∀ c ∈ partitionNames.map (fun n => (n, fs n)), ∀ p,
      c.2 G = Except.ok p → (∀ q ∈ p, q.1 ∈ G.nodes) ∧ (p.map Prod.fst).Nodup := by
    intro c hc p hp
    rcases List.mem_map.1 hc with ⟨n, _, rfl⟩
    exact ⟨hdom n p hp, hnd n p hp⟩
  refine ⟨h1, ?_, ?_⟩
  · intro n part
    constructor
    · intro hmem
      rw [h1] at hmem
      rcases List.mem_filterMap.1 hmem with ⟨c, hc, hsucc⟩
      rcases List.mem_map.1 hc with ⟨n', hn', rfl⟩
      unfold partSucc at hsucc
      dsimp only at hsucc
      cases hfs : fs n' G with
      | error e => rw [hfs] at hsucc; simp [Except.toOption] at hsucc
      | ok p =>
        rw [hfs] at hsucc
        simp only [Except.toOption, Option.map] at hsucc
        have he1 : n' = n := congrArg Prod.fst (Option.some.inj hsucc)
        have he2 : p = part := congrArg Prod.snd (Option.some.inj hsucc)
        subst he1
        subst he2
        exact ⟨hn', hfs⟩
    · rintro ⟨hn, hok⟩
      rw [h1]
      refine List.mem_filterMap.2 ⟨(n, fs n), List.mem_map_of_mem _ hn, ?_⟩
      simp [partSucc, hok, Except.toOption]
  · intro n part hmem q hq
    rw [h1] at hmem
    rw [addPartitionsBatch, addPartitions]
    exact addPartitions_foldl_attrs G _ [] [] hnames hdom' n part hmem q hq

/-- Witness for C6: with `spinglass` raising and the rest succeeding on the
two-node graph, `louvain` is reported with its partition and `spinglass`
is absent. -/
theorem c6_partition_batch_witness :
    ("louvain", [((0:Nat), 0), (1, 0)]) ∈ (addPartitionsBatch exFs exG6).1 ∧
      ¬ ∃ part, ("spinglass", part) ∈ (addPartitionsBatch exFs exG6).1 := by
  have hdom : ∀ n part, exFs n exG6 = Except.ok part → ∀ q ∈ part, q.1 ∈ exG6.nodes := by
    intro n part h q hqmem
    by_cases hn : n = "spinglass"
    · simp [exFs, hn] at h
    · simp [exFs, hn] at h
      subst h
      rcases List.mem_map.1 hqmem with ⟨v, hv, rfl⟩
      exact hv
  have hnd : ∀ n part, exFs n exG6 = Except.ok part → (part.map Prod.fst).Nodup := by
    intro n part h
    by_cases hn : n = "spinglass"
    · simp [exFs, hn] at h
    · simp [exFs, hn] at h
      subst h
      decide
  have hiff := (c6_partition_batch exFs exG6 hdom hnd).2.1
  constructor
  · exact (hiff "louvain" [((0:Nat), 0), (1, 0)]).2 ⟨by decide, rfl⟩
  · rintro ⟨part, hpart⟩
    have h := (hiff "spinglass" part).1 hpart
    simpa [exFs] using h.2

/-! ### C3 — historiograph edge orientation and year attributes -/

/-- Keys present in a dictionary have a value. -/
theorem dictGet_isSome_of_mem_keys {κ ν : Type} [DecidableEq κ] :
    ∀ (d : List (κ × ν)) (k : κ), k ∈ d.map Prod.fst →
      ∃ v, dictGet d k = some v := by
  intro d
  induction d with
  | nil => intro k hk; simp at hk
  | cons e t ih =>
    intro k hk
    by_cases he : e.1 = k
    · exact ⟨e.2, by simp [dictGet, he]⟩
    · have : k ∈ t.map Prod.fst := by
        rcases List.mem_map.1 hk with ⟨p, hp, hpk⟩
        rcases List.mem_cons.1 hp with rfl | hp'
        · exact absurd hpk he
        · exact hpk ▸ List.mem_map_of_mem Prod.fst hp'
      simpa [dictGet, he] using ih k this

/-- The inserted key is a key of the result. -/
theorem mem_keys_dictInsert_self {κ ν : Type} [DecidableEq κ]
    (d : List (κ × ν)) (k : κ) (v : ν) :
    k ∈ (dictInsert d k v).map Prod.fst := by
  unfold dictInsert
  by_cases h : k ∈ d.map Prod.fst
  · rw [if_pos h]
    rcases List.mem_map.1 h with ⟨e, he, hek⟩
    refine List.mem_map.2 ⟨(k, v), ?_, rfl⟩
    refine List.mem_map.2 ⟨e, he, ?_⟩
    simp [hek]
  · rw [if_neg h]
    simp

/-- Insertion keeps every existing key. -/
theorem mem_keys_dictInsert_mono {κ ν : Type} [DecidableEq κ]
    (d : List (κ × ν)) (k k' : κ) (v : ν) (h : k' ∈ d.map Prod.fst) :
    k' ∈ (dictInsert d k v).map Prod.fst := by
  unfold dictInsert
  by_cases hk : k ∈ d.map Prod.fst
  · rw [if_pos hk]
    rcases List.mem_map.1 h with ⟨e, he, hek⟩
    by_cases hekk : e.1 = k
    · refine List.mem_map.2 ⟨(k, v), List.mem_map.2 ⟨e, he, by simp [hekk]⟩, ?_⟩
      exact (hekk ▸ hek : k = k')
    · exact List.mem_map.2 ⟨e, List.mem_map.2 ⟨e, he, by simp [hekk]⟩, hek⟩
  · rw [if_neg hk]
    rw [List.map_append]
    exact List.mem_append_left _ h

/-- A resolved citing label is a `label_map` value. -/
theorem histCitingLabel_lookup (lm : List (PyStr × PyStr)) (r : HRow)
    (citing : PyStr) (h : histCitingLabel lm r = some citing) :
    ∃ k, dictGet lm k = some citing := by
  unfold histCitingLabel at h
  cases ht : r.title with
  | none => rw [ht] at h; exact absurd h (by simp)
  | some t =>
    rw [ht] at h
    dsimp only at h
    by_cases hte : t = []
    · rw [if_pos hte] at h; exact absurd h (by simp)
    · rw [if_neg hte] at h
      cases hg : dictGet lm (pyLower t) with
      | none => rw [hg] at h; exact absurd h (by simp)
      | some l =>
        rw [hg] at h
        dsimp only at h
        by_cases hle : l = []
        · rw [if_pos hle] at h; exact absurd h (by simp)
        · rw [if_neg hle] at h
          exact ⟨pyLower t, hg.trans (congrArg some (Option.some.inj h))⟩

/-- A resolved cited label is a `label_map` value. -/
theorem histCitedLabel_lookup (am : PyStr → List PyStr → Option PyStr)
    (tm lm : List (PyStr × PyStr)) (rt cited : PyStr)
    (h : histCitedLabel am tm lm rt = some cited) :
    ∃ k, dictGet lm k = some cited := by
  unfold histCitedLabel at h
  cases hm : am (pyLower rt) (tm.map Prod.fst) with
  | none => rw [hm] at h; exact absurd h (by simp)
  | some k =>
    rw [hm] at h
    dsimp only at h
    cases htm : dictGet tm k with
    | none => rw [htm] at h; exact absurd h (by simp)
    | some mt =>
      rw [htm] at h
      dsimp only at h
      cases hlm : dictGet lm (pyLower mt) with
      | none => rw [hlm] at h; exact absurd h (by simp)
      | some l =>
        rw [hlm] at h
        dsimp only at h
        by_cases hle : l = []
        · rw [if_pos hle] at h; exact absurd h (by simp)
        · rw [if_neg hle] at h
          exact ⟨pyLower mt, hlm.trans (congrArg some (Option.some.inj h))⟩

/-- Along the first pass, every `label_map` value is a node key. -/
theorem histLoop1_lookup_mem :
    ∀ (rows : List HRow) (s0 : List (PyStr × PyStr) × List (PyStr × Int)),
      (∀ k lab, dictGet s0.1 k = some lab → lab ∈ s0.2.map Prod.fst) →
      ∀ k lab, dictGet (rows.foldl histStep s0).1 k = some lab →
        lab ∈ (rows.foldl histStep s0).2.map Prod.fst := by
  intro rows
  induction rows with
  | nil => intro s0 h k lab; exact h k lab
  | cons r rest ih =>
    intro s0 h0
    refine ih (histStep s0 r) ?_
    intro k lab hget
    unfold histStep at hget ⊢
    cases htit : r.title with
    | none =>
      rw [htit] at hget
      dsimp only at hget ⊢
      exact h0 k lab hget
    | some t =>
      cases hy : r.year with
      | none =>
        rw [htit, hy] at hget
        dsimp only at hget ⊢
        exact h0 k lab hget
      | some y =>
        rw [htit, hy] at hget
        dsimp only at hget ⊢
        by_cases hk : k = pyLower t
        · subst hk
          rw [dictGet_insert_self] at hget
          have : lab = r.label.getD t := (Option.some.inj hget).symm
          subst this
          exact mem_keys_dictInsert_self _ _ _
        · rw [dictGet_insert_other _ _ _ _ hk] at hget
          exact mem_keys_dictInsert_mono _ _ _ _ (h0 k lab hget)

/-- Accumulated edges survive the inner reference loop. -/
theorem histInner_mono (am : PyStr → List PyStr → Option PyStr)
    (tm lm : List (PyStr × PyStr)) (citing : PyStr) :
    ∀ (rts : List PyStr) (acc2 : List (PyStr × PyStr)) (x : PyStr × PyStr),
      x ∈ acc2 → x ∈ rts.foldl (histInner am tm lm citing) acc2 := by
  intro rts
  induction rts with
  | nil => intro acc2 x hx; exact hx
  | cons rt rest ih =>
    intro acc2 x hx
    rw [List.foldl_cons]
    refine ih _ x ?_
    unfold histInner
    cases histCitedLabel am tm lm rt with
    | none => exact hx
    | some cited =>
      dsimp only
      split
      · exact hx
      · exact List.mem_append_left _ hx

/-- Accumulated edges survive the outer row loop. -/
theorem histRow_mono (am : PyStr → List PyStr → Option PyStr)
    (tm lm : List (PyStr × PyStr)) :
    ∀ (rows : List HRow) (acc : List (PyStr × PyStr)) (x : PyStr × PyStr),
      x ∈ acc → x ∈ rows.foldl (histRowStep am tm lm) acc := by
  intro rows
  induction rows with
  | nil => intro acc x hx; exact hx
  | cons r rest ih =>
    intro acc x hx
    rw [List.foldl_cons]
    refine ih _ x ?_
    unfold histRowStep
    cases histCitingLabel lm r with
    | none => exact hx
    | some citing => exact histInner_mono am tm lm citing _ acc x hx

/-- The inner loop records the edge of every resolving reference title. -/
theorem histInner_adds (am : PyStr → List PyStr → Option PyStr)
    (tm lm : List (PyStr × PyStr)) (citing cited : PyStr) :
    ∀ (rts : List PyStr) (acc2 : List (PyStr × PyStr)) (rt : PyStr),
      rt ∈ rts → histCitedLabel am tm lm rt = some cited → cited ≠ citing →
      (cited, citing) ∈ rts.foldl (histInner am tm lm citing) acc2 := by
  intro rts
  induction rts with
  | nil => intro acc2 rt h; exact absurd h (List.not_mem_nil rt)
  | cons r0 rest ih =>
    intro acc2 rt hmem hres hne
    rw [List.foldl_cons]
    rcases List.mem_cons.1 hmem with rfl | hmem'
    · refine histInner_mono am tm lm citing rest _ _ ?_
      unfold histInner
      rw [hres]
      dsimp only
      rw [if_neg hne]
      exact List.mem_append_right _ (List.mem_cons_self _ _)
    · exact ih _ rt hmem' hres hne

/-- Every matched pair ends up as a `(cited, citing)` edge. -/
theorem histEdges_complete (am : PyStr → List PyStr → Option PyStr)
    (rows : List HRow) (cited citing : PyStr)
    (h : MatchedPair am rows cited citing) :
    (cited, citing) ∈ histEdges am rows := by
  obtain ⟨r, hr, hcit, rt, hrt, hced, hne⟩ := h
  unfold histEdges
  have hgen : ∀ (rowsIter : List HRow) (acc : List (PyStr × PyStr)),
      r ∈ rowsIter →
      (cited, citing) ∈ rowsIter.foldl
        (histRowStep am (titleMapOf rows) (histLoop1 rows).1) acc := by
    intro rowsIter
    induction rowsIter with
    | nil => intro acc h; exact absurd h (List.not_mem_nil r)
    | cons r0 rest ih =>
      intro acc hmem
      rw [List.foldl_cons]
      rcases List.mem_cons.1 hmem with rfl | hmem'
      · refine histRow_mono am _ _ rest _ _ ?_
        unfold histRowStep
        rw [hcit]
        exact histInner_adds am _ _ citing cited _ acc rt hrt hced hne
      · exact ih _ hmem'
  exact hgen rows [] hr

/-- Both endpoints of every edge are node keys of the first pass. -/
theorem histEdges_endpoints (am : PyStr → List PyStr → Option PyStr)
    (rows : List HRow) :
    ∀ e ∈ histEdges am rows,
      e.1 ∈ (histLoop1 rows).2.map Prod.fst ∧
        e.2 ∈ (histLoop1 rows).2.map Prod.fst := by
  have hinv : ∀ k lab, dictGet (histLoop1 rows).1 k = some lab →
      lab ∈ (histLoop1 rows).2.map Prod.fst := by
    intro k lab
    exact histLoop1_lookup_mem rows ([], []) (by intro k lab h; simp [dictGet] at h) k lab
  unfold histEdges
  have hinner : ∀ (citing : PyStr),
      citing ∈ (histLoop1 rows).2.map Prod.fst →
      ∀ (rts : List PyStr) (acc2 : List (PyStr × PyStr)),
      (∀ e ∈ acc2, e.1 ∈ (histLoop1 rows).2.map Prod.fst ∧
        e.2 ∈ (histLoop1 rows).2.map Prod.fst) →
      ∀ e ∈ rts.foldl (histInner am (titleMapOf rows) (histLoop1 rows).1 citing) acc2,
        e.1 ∈ (histLoop1 rows).2.map Prod.fst ∧
          e.2 ∈ (histLoop1 rows).2.map Prod.fst := by
    intro citing hciting rts
    induction rts with
    | nil => intro acc2 hacc e he; exact hacc e he
    | cons rt rest ih =>
      intro acc2 hacc e he
      rw [List.foldl_cons] at he
      refine ih _ ?_ e he
      intro e' he'
      unfold histInner at he'
      cases hc : histCitedLabel am (titleMapOf rows) (histLoop1 rows).1 rt with
      | none => rw [hc] at he'; exact hacc e' he'
      | some cited =>
        rw [hc] at he'
        dsimp only at he'
        split at he'
        · exact hacc e' he'
        · rcases List.mem_append.1 he' with h' | h'
          · exact hacc e' h'
          · have : e' = (cited, citing) := List.mem_singleton.1 h'
            subst this
            obtain ⟨k, hk⟩ := histCitedLabel_lookup am _ _ rt cited hc
            exact ⟨hinv k cited hk, hciting⟩
  have houter : ∀ (rowsIter : List HRow) (acc : List (PyStr × PyStr)),
      (∀ e ∈ acc, e.1 ∈ (histLoop1 rows).2.map Prod.fst ∧
        e.2 ∈ (histLoop1 rows).2.map Prod.fst) →
      ∀ e ∈ rowsIter.foldl
        (histRowStep am (titleMapOf rows) (histLoop1 rows).1) acc,
        e.1 ∈ (histLoop1 rows).2.map Prod.fst ∧
          e.2 ∈ (histLoop1 rows).2.map Prod.fst := by
    intro rowsIter
    induction rowsIter with
    | nil => intro acc hacc e he; exact hacc e he
    | cons r rest ih =>
      intro acc hacc e he
      rw [List.foldl_cons] at he
      refine ih _ ?_ e he
      intro e' he'
      unfold histRowStep at he'
      cases hcit : histCitingLabel (histLoop1 rows).1 r with
      | none => rw [hcit] at he'; exact hacc e' he'
      | some citing =>
        rw [hcit] at he'
        obtain ⟨k, hk⟩ := histCitingLabel_lookup _ r citing hcit
        exact hinner citing (hinv k citing hk) _ acc hacc e' he'
  exact houter rows [] (by intro e he; exact absurd he (List.not_mem_nil e))

/-- C3 (amended): every matched (citing, cited) pair produces the directed
edge oriented from the CITED document to the CITING document — the
opposite of the claimed citing→cited — and every node of the returned
graph carries the document's publication year as a node attribute. -/
theorem c3_historiograph_edges_years (am : PyStr → List PyStr → Option PyStr)
    (rows : List HRow) :
    (∀ cited citing, MatchedPair am rows cited citing →
      (cited, citing) ∈ (buildHistoriograph am rows).edges) ∧
    (∀ v ∈ (buildHistoriograph am rows).nodeList,
      ∃ y, dictGet (buildHistoriograph am rows).nodeAttrs v = some y) := by
  constructor
  · intro cited citing h
    exact histEdges_complete am rows cited citing h
  · intro v hv
    have hv' : v ∈ (histLoop1 rows).2.map Prod.fst
        ++ (histEdges am rows).flatMap (fun e => [e.1, e.2]) := hv
    rcases List.mem_append.1 hv' with h | h
    · exact dictGet_isSome_of_mem_keys _ v h
    · rcases List.mem_flatMap.1 h with ⟨e, he, hve⟩
      have hend := histEdges_endpoints am rows e he
      rcases List.mem_cons.1 hve with rfl | hve'
      · exact dictGet_isSome_of_mem_keys _ _ hend.1
      · have : v = e.2 := List.mem_singleton.1 hve'
        subst this
        exact dictGet_isSome_of_mem_keys _ _ hend.2

/-- Counterexample for C3 as stated: in the two-document table, document B
cites document A (titles match exactly), yet the graph holds the edge
(A, B) — cited→citing — and not the claimed citing→cited edge (B, A). -/
theorem c3_historiograph_counterexample :
    MatchedPair exAm exRows3 "A".toList "B".toList ∧
      ("A".toList, "B".toList) ∈ (buildHistoriograph exAm exRows3).edges ∧
      ("B".toList, "A".toList) ∉ (buildHistoriograph exAm exRows3).edges := by
  refine ⟨⟨⟨some "doc b".toList, some 2001, some "B".toList, some "doc a".toList⟩,
    ?_, by decide, "doc a".toList, by decide, by decide, by decide⟩, by decide, by decide⟩
  exact List.mem_cons_of_mem _ (List.mem_cons_self _ _)

/-- Witness for C3 on the two-document table with the exact matcher. -/
theorem c3_historiograph_edges_years_witness :
    ("A".toList, "B".toList) ∈ (buildHistoriograph exAm exRows3).edges ∧
      (∃ y, dictGet (buildHistoriograph exAm exRows3).nodeAttrs "A".toList = some y) :=
  ⟨(c3_historiograph_edges_years exAm exRows3).1 "A".toList "B".toList
      ⟨⟨some "doc b".toList, some 2001, some "B".toList, some "doc a".toList⟩,
        List.mem_cons_of_mem _ (List.mem_cons_self _ _), by decide,
        "doc a".toList, by decide, by decide, by decide⟩,
    (c3_historiograph_edges_years exAm exRows3).2 "A".toList (by decide)⟩

/-! ### C4 — main path well-definedness -/

/-- Reachability expansion keeps its seed. -/
theorem mem_reachIter_of_mem {α : Type} [DecidableEq α] (edges : List (α × α)) :
    ∀ (n : Nat) (acc : List α) (x : α), x ∈ acc → x ∈ reachIter edges n acc := by
  intro n
  induction n with
  | zero => intro acc x hx; exact hx
  | succ m ih =>
    intro acc x hx
    rw [reachIter]
    refine ih _ x ?_
    unfold reachStep
    exact List.mem_dedup.2 (List.mem_append_left _ hx)

/-- Reachability is reflexive. -/
theorem reaches_refl {α : Type} [DecidableEq α] (g : SGraph α) (u : α) :
    reaches g u u :=
  mem_reachIter_of_mem g.edges g.nodes.length [u] u (List.mem_singleton.2 rfl)

/-- A graph node belongs to its own strongly-connected component. -/
theorem mem_sccOf_self {α : Type} [DecidableEq α] (g : SGraph α) (u : α)
    (hu : u ∈ g.nodes) : u ∈ sccOf g u := by
  unfold sccOf
  refine List.mem_filter.2 ⟨hu, ?_⟩
  simp [reaches_refl]

/-- The condensation of a well-formed graph is well-formed. -/
theorem condensation_wf {α : Type} [DecidableEq α] (g : SGraph α)
    (hwf : ∀ e ∈ g.edges, e.1 ∈ g.nodes ∧ e.2 ∈ g.nodes) :
    ∀ e ∈ (condensation g).edges,
      e.1 ∈ (condensation g).nodes ∧ e.2 ∈ (condensation g).nodes := by
  intro e he
  unfold condensation at he ⊢
  dsimp only at he ⊢
  rcases List.mem_filterMap.1 (List.mem_dedup.1 he) with ⟨uv, huv, hsome⟩
  by_cases hsame : sccOf g uv.1 = sccOf g uv.2
  · rw [if_pos hsame] at hsome; exact absurd hsome (by simp)
  · rw [if_neg hsame] at hsome
    have : (sccOf g uv.1, sccOf g uv.2) = e := Option.some.inj hsome
    subst this
    exact ⟨List.mem_dedup.2 (List.mem_map_of_mem _ (hwf uv huv).1),
      List.mem_dedup.2 (List.mem_map_of_mem _ (hwf uv huv).2)⟩

/-- Successor membership unfolds to edge membership. -/
theorem mem_succsOf {α : Type} [DecidableEq α] (edges : List (α × α)) (u v : α) :
    v ∈ succsOf edges u ↔ (u, v) ∈ edges := by
  unfold succsOf
  constructor
  · intro h
    rcases List.mem_map.1 h with ⟨e, he, hev⟩
    have h1 := List.mem_filter.1 he
    have he1 : e.1 = u := by simpa using h1.2
    have : (u, v) = e := by
      cases e
      cases he1
      cases hev
      rfl
    exact this ▸ h1.1
  · intro h
    exact List.mem_map.2 ⟨(u, v), List.mem_filter.2 ⟨h, by simp⟩, rfl⟩

/-- Every enumerated path starts at its start node and follows edges. -/
theorem pathsFrom_sound {β : Type} [DecidableEq β] (edges : List (β × β)) :
    ∀ (fuel : Nat) (u : β) (visited : List β) (p : List β),
      p ∈ pathsFrom edges fuel u visited →
      ∃ rest, p = u :: rest ∧ List.Chain' (fun a b => (a, b) ∈ edges) p := by
  intro fuel
  induction fuel with
  | zero =>
    intro u visited p hp
    rw [pathsFrom] at hp
    have : p = [u] := List.mem_singleton.1 hp
    exact ⟨[], this, by simp [this]⟩
  | succ m ih =>
    intro u visited p hp
    rw [pathsFrom] at hp
    rcases List.mem_cons.1 hp with rfl | hp'
    · exact ⟨[], rfl, by simp⟩
    · rcases List.mem_flatMap.1 hp' with ⟨v, hv, hpv⟩
      rcases List.mem_map.1 hpv with ⟨q, hq, rfl⟩
      rcases ih v (v :: visited) q hq with ⟨rest', hrest', hchain⟩
      have hedge : (u, v) ∈ edges :=
        (mem_succsOf edges u v).1 (List.mem_filter.1 hv).1
      refine ⟨q, rfl, ?_⟩
      rw [hrest']
      rw [hrest'] at hchain
      exact List.chain'_cons.2 ⟨hedge, hchain⟩

/-- Enumerated paths stay inside the node set of a well-formed graph. -/
theorem pathsFrom_subset {β : Type} [DecidableEq β] (edges : List (β × β))
    (nodes : List β) (hcl : ∀ e ∈ edges, e.2 ∈ nodes) :
    ∀ (fuel : Nat) (u : β) (visited : List β) (p : List β), u ∈ nodes →
      p ∈ pathsFrom edges fuel u visited → ∀ x ∈ p, x ∈ nodes := by
  intro fuel
  induction fuel with
  | zero =>
    intro u visited p hu hp x hx
    rw [pathsFrom] at hp
    rw [List.mem_singleton.1 hp] at hx
    rw [List.mem_singleton.1 hx]
    exact hu
  | succ m ih =>
    intro u visited p hu hp x hx
    rw [pathsFrom] at hp
    rcases List.mem_cons.1 hp with rfl | hp'
    · rw [List.mem_singleton.1 hx]; exact hu
    · rcases List.mem_flatMap.1 hp' with ⟨v, hv, hpv⟩
      rcases List.mem_map.1 hpv with ⟨q, hq, rfl⟩
      have hvn : v ∈ nodes := by
        have hedge : (u, v) ∈ edges :=
          (mem_succsOf edges u v).1 (List.mem_filter.1 hv).1
        exact hcl (u, v) hedge
      rcases List.mem_cons.1 hx with rfl | hx'
      · exact hu
      · exact ih v (v :: visited) q hvn hq x hx'

/-- Completeness of the path enumeration: every duplicate-free edge chain
avoiding the visited set is produced. -/
theorem pathsFrom_complete {β : Type} [DecidableEq β] (edges : List (β × β)) :
    ∀ (rest : List β) (fuel : Nat) (u : β) (visited : List β),
      List.Chain' (fun a b => (a, b) ∈ edges) (u :: rest) →
      (u :: rest).Nodup →
      (∀ x ∈ rest, x ∉ visited) →
      rest.length ≤ fuel →
      (u :: rest) ∈ pathsFrom edges fuel u visited := by
  intro rest
  induction rest with
  | nil =>
    intro fuel u visited _ _ _ _
    cases fuel with
    | zero => rw [pathsFrom]; exact List.mem_singleton.2 rfl
    | succ m => rw [pathsFrom]; exact List.mem_cons_self _ _
  | cons v rest' ih =>
    intro fuel u visited hchain hnd hvis hlen
    cases fuel with
    | zero => simp at hlen
    | succ m =>
      rw [pathsFrom]
      refine List.mem_cons_of_mem _ ?_
      refine List.mem_flatMap.2 ⟨v, ?_, ?_⟩
      · refine List.mem_filter.2 ⟨?_, ?_⟩
        · exact (mem_succsOf edges u v).2 (List.chain'_cons.1 hchain).1
        · simpa using hvis v (List.mem_cons_self _ _)
      · refine List.mem_map.2 ⟨v :: rest', ?_, rfl⟩
        refine ih m v (v :: visited) (List.chain'_cons.1 hchain).2
          (List.nodup_cons.1 hnd).2 ?_ (by simpa using hlen)
        intro x hx
        simp only [List.mem_cons]
        rintro (rfl | hxv)
        · exact (List.nodup_cons.1 (List.nodup_cons.1 hnd).2).1 hx
        · exact hvis x (List.mem_cons_of_mem _ hx) hxv

/-- Every nonempty duplicate-free chain over the graph is enumerated. -/
theorem allPaths_complete {β : Type} [DecidableEq β] (g : SGraph β)
    (q : List β) (hne : q ≠ [])
    (hchain : List.Chain' (fun a b => (a, b) ∈ g.edges) q)
    (hnd : q.Nodup) (hsub : ∀ x ∈ q, x ∈ g.nodes) : q ∈ allPaths g := by
  cases q with
  | nil => exact absurd rfl hne
  | cons u rest =>
    unfold allPaths
    refine List.mem_flatMap.2 ⟨u, hsub u (List.mem_cons_self _ _), ?_⟩
    refine pathsFrom_complete g.edges rest g.nodes.length u [u] hchain hnd ?_ ?_
    · intro x hx
      simp only [List.mem_singleton]
      rintro rfl
      exact (List.nodup_cons.1 hnd).1 hx
    · have hsp : (u :: rest).Subperm g.nodes :=
        List.Nodup.subperm hnd (fun x hx => hsub x hx)
      have := hsp.length_le
      simp only [List.length_cons] at this
      omega

/-- The fold picking a longest element is a maximum over the list. -/
theorem foldl_longest_spec {β : Type} :
    ∀ (l : List (List β)) (b : List β),
      (l.foldl (fun best p => if best.length < p.length then p else best) b = b
        ∨ l.foldl (fun best p => if best.length < p.length then p else best) b ∈ l)
      ∧ b.length ≤ (l.foldl (fun best p => if best.length < p.length then p else best) b).length
      ∧ ∀ p ∈ l, p.length ≤ (l.foldl (fun best p => if best.length < p.length then p else best) b).length := by
  intro l
  induction l with
  | nil => intro b; exact ⟨Or.inl rfl, le_refl _, fun p hp => absurd hp (List.not_mem_nil p)⟩
  | cons q t ih =>
    intro b
    rw [List.foldl_cons]
    by_cases h : b.length < q.length
    · rw [if_pos h]
      rcases ih q with ⟨hmem, hble, hall⟩
      refine ⟨?_, ?_, ?_⟩
      · rcases hmem with he | hm
        · exact Or.inr (by rw [he]; exact List.mem_cons_self _ _)
        · exact Or.inr (List.mem_cons_of_mem _ hm)
      · exact le_trans (le_of_lt h) hble
      · intro p hp
        rcases List.mem_cons.1 hp with rfl | hp'
        · exact hble
        · exact hall p hp'
    · rw [if_neg h]
      rcases ih b with ⟨hmem, hble, hall⟩
      refine ⟨?_, hble, ?_⟩
      · rcases hmem with he | hm
        · exact Or.inl he
        · exact Or.inr (List.mem_cons_of_mem _ hm)
      · intro p hp
        rcases List.mem_cons.1 hp with rfl | hp'
        · exact le_trans (le_of_not_lt h) hble
        · exact hall p hp'

/-- The head of the insertion sort of a nonempty list is its minimum. -/
theorem pySorted_head_min {α : Type} [LinearOrder α] (l : List α)
    (hne : l ≠ []) :
    ∃ r, (pySorted l).head? = some r ∧ r ∈ l ∧ ∀ x ∈ l, r ≤ x := by
  have hperm := List.perm_insertionSort (· ≤ ·) l
  have hsorted := List.sorted_insertionSort (· ≤ ·) l
  cases hs : l.insertionSort (· ≤ ·) with
  | nil =>
    rw [hs] at hperm
    exact absurd (hperm.symm.eq_nil) hne
  | cons r t =>
    refine ⟨r, by simp [pySorted, hs], ?_, ?_⟩
    · exact hperm.mem_iff.1 (hs ▸ List.mem_cons_self _ _)
    · intro x hx
      have hx' : x ∈ r :: t := hs ▸ hperm.mem_iff.2 hx
      rcases List.mem_cons.1 hx' with rfl | hxt
      · exact le_refl x
      · have := hs ▸ hsorted
        exact (List.sorted_cons.1 this).1 x hxt

/-- Enumerated paths are nonempty edge chains inside the graph. -/
theorem allPaths_sound {β : Type} [DecidableEq β] (g : SGraph β) (p : List β)
    (hp : p ∈ allPaths g) :
    p ≠ [] ∧ List.Chain' (fun a b => (a, b) ∈ g.edges) p ∧
      ((∀ e ∈ g.edges, e.2 ∈ g.nodes) → ∀ x ∈ p, x ∈ g.nodes) := by
  unfold allPaths at hp
  rcases List.mem_flatMap.1 hp with ⟨u, hu, hpu⟩
  rcases pathsFrom_sound g.edges _ u [u] p hpu with ⟨rest, hrest, hchain⟩
  refine ⟨by simp [hrest], hchain, fun hcl =>
    pathsFrom_subset g.edges g.nodes hcl _ u [u] p hu hpu⟩

/-- Representative extraction: sorting each nonempty member list and taking
the head yields, pointwise, the minimum of that member list. -/
theorem filterMap_sorted_forall {α : Type} [LinearOrder α] :
    ∀ l : List (List α), (∀ m ∈ l, m ≠ []) →
      List.Forall₂ (fun r m => r ∈ m ∧ ∀ x ∈ m, r ≤ x)
        (l.filterMap (fun m => (pySorted m).head?)) l := by
  intro l
  induction l with
  | nil => intro _; rw [List.filterMap_nil]; exact List.Forall₂.nil
  | cons m t ih =>
    intro hne
    obtain ⟨r, hr, hrm, hmin⟩ := pySorted_head_min m (hne m (List.mem_cons_self _ _))
    rw [List.filterMap_cons, hr]
    exact List.Forall₂.cons ⟨hrm, hmin⟩
      (ih (fun m' hm' => hne m' (List.mem_cons_of_mem _ hm')))

/-- C4: on every directed graph (cycles included) `compute_main_path`
terminates (it is a total function) and returns a longest path of the
condensation expanded to document identifiers: consecutive supernodes of
the underlying longest path are joined by condensation edges, the path is
at least as long as every duplicate-free condensation path, and each
returned identifier is the lexicographically smallest member of its
supernode. -/
theorem c4_main_path {α : Type} [LinearOrder α] (g : SGraph α)
    (hwf : ∀ e ∈ g.edges, e.1 ∈ g.nodes ∧ e.2 ∈ g.nodes) :
    List.Chain' (fun a b => (a, b) ∈ (condensation g).edges)
      (longestPath (condensation g)) ∧
    (∀ q, List.Chain' (fun a b => (a, b) ∈ (condensation g).edges) q →
      q.Nodup → (∀ x ∈ q, x ∈ (condensation g).nodes) →
      q.length ≤ (longestPath (condensation g)).length) ∧
    List.Forall₂ (fun r m => r ∈ m ∧ ∀ x ∈ m, r ≤ x)
      (computeMainPath g) (longestPath (condensation g)) := by
  have hwfc := condensation_wf g hwf
  have hspec := foldl_longest_spec (allPaths (condensation g)) []
  have hcl : ∀ e ∈ (condensation g).edges, e.2 ∈ (condensation g).nodes :=
    fun e he => (hwfc e he).2
  have hmem_ne : ∀ m ∈ longestPath (condensation g), m ≠ [] := by
    intro m hm
    rcases hspec.1 with he | hin
    · rw [longestPath, he] at hm
      exact absurd hm (List.not_mem_nil m)
    · have hin' : longestPath (condensation g) ∈ allPaths (condensation g) := hin
      have hsub := (allPaths_sound _ _ hin').2.2 hcl m hm
      have : m ∈ (g.nodes.map (sccOf g)).dedup := hsub
      rcases List.mem_map.1 (List.mem_dedup.1 this) with ⟨u, hu, rfl⟩
      exact List.ne_nil_of_mem (mem_sccOf_self g u hu)
  refine ⟨?_, ?_, ?_⟩
  · rcases hspec.1 with he | hin
    · rw [longestPath, he]
      exact List.chain'_nil
    · have hin' : longestPath (condensation g) ∈ allPaths (condensation g) := hin
      exact (allPaths_sound _ _ hin').2.1
  · intro q hq hnd hsubq
    by_cases hqe : q = []
    · rw [hqe]
      simp
    · have hqa := allPaths_complete _ q hqe hq hnd hsubq
      exact hspec.2.2 q hqa
  · show List.Forall₂ (fun r m => r ∈ m ∧ ∀ x ∈ m, r ≤ x)
      ((longestPath (condensation g)).filterMap (fun m => (pySorted m).head?))
      (longestPath (condensation g))
    exact filterMap_sorted_forall _ hmem_ne

/-- Witness for C4 at the cyclic three-node graph `0 ↔ 1 → 2`: the
computation yields the expanded path `[0, 2]` through the condensed
2-cycle. -/
theorem c4_main_path_witness :
    (∀ e ∈ exG4.edges, e.1 ∈ exG4.nodes ∧ e.2 ∈ exG4.nodes) ∧
      List.Forall₂ (fun (r : Nat) m => r ∈ m ∧ ∀ x ∈ m, r ≤ x)
        (computeMainPath exG4) (longestPath (condensation exG4)) :=
  ⟨by decide, (c4_main_path exG4 (by decide)).2.2⟩

/-! ### C5 — citation network invariants -/

/-- Invariant preservation along a left fold. -/
theorem foldl_invariant {σ β : Type} (f : σ → β → σ) (P : σ → Prop) :
    ∀ (l : List β) (s : σ), P s → (∀ s' x, x ∈ l → P s' → P (f s' x)) →
      P (l.foldl f s) := by
  intro l
  induction l with
  | nil => intro s hs _; exact hs
  | cons x t ih =>
    intro s hs hstep
    rw [List.foldl_cons]
    exact ih (f s x) (hstep s x (List.mem_cons_self _ _) hs)
      (fun s' y hy => hstep s' y (List.mem_cons_of_mem _ hy))

/-- A matched reference target is an index into the title list. -/
theorem refTarget_lt (score : PyStr → PyStr → Nat) (normTitles : List PyStr)
    (threshold : Nat) (normRef : PyStr) (tgt : Nat)
    (h : refTarget score normTitles threshold normRef = some tgt) :
    tgt < normTitles.length := by
  unfold refTarget at h
  by_cases hm : normRef ∈ normTitles
  · rw [if_pos hm] at h
    have := Option.some.inj h
    subst this
    unfold List.indexOf
    exact List.findIdx_lt_length_of_exists ⟨normRef, hm, by simp⟩
  · rw [if_neg hm] at h
    dsimp only at h
    have hbest : ∀ j, (normTitles.enum.foldl
        (fun b je => if b.1 < score normRef je.2 then (score normRef je.2, some je.1) else b)
        ((0 : Nat), (none : Option Nat))).2 = some j → j < normTitles.length := by
      refine foldl_invariant _
        (fun b => ∀ j, b.2 = some j → j < normTitles.length) normTitles.enum
        ((0 : Nat), (none : Option Nat)) (by simp) ?_
      intro b je hje hb j hj
      by_cases hlt : b.1 < score normRef je.2
      · rw [if_pos hlt] at hj
        have : je.1 = j := Option.some.inj hj
        subst this
        obtain ⟨i, x⟩ := je
        exact (List.mem_enum hje).1
      · rw [if_neg hlt] at hj
        exact hb j hj
    split at h
    · exact hbest tgt h
    · exact absurd h (by simp)

/-- Every edge built by the reference-matching pass joins two row indices. -/
theorem citationRaw_edges_lt (score : PyStr → PyStr → Nat) (rows : List CRow)
    (threshold : Nat) :
    ∀ e ∈ (citationRaw score rows threshold).1,
      e.1 < rows.length ∧ e.2 < rows.length := by
  unfold citationRaw
  refine foldl_invariant _
    (fun (st : List (Nat × Nat) × List (Nat × List PyStr)) =>
      ∀ e ∈ st.1, e.1 < rows.length ∧ e.2 < rows.length) _ _
    (by intro e he; exact absurd he (List.not_mem_nil e)) ?_
  intro st ir hir hst
  unfold citeRowStep
  cases hr : ir.2.refs with
  | none => exact hst
  | some s =>
    dsimp only
    have hidx : ir.1 < rows.length := by
      obtain ⟨i, x⟩ := ir
      exact List.fst_lt_of_mem_enum hir
    have hinner := foldl_invariant
      (citeRefStep score (rows.map (fun r => normalizeText r.title)) threshold ir.1)
      (fun (st2 : List (Nat × Nat) × List PyStr) =>
        ∀ e ∈ st2.1, e.1 < rows.length ∧ e.2 < rows.length)
      (((pySplit [';'] s).map pyStrip).filter (fun r => ¬ r = []))
      (st.1, []) hst ?_
    · intro e he
      exact hinner e he
    · intro st2 ref _ hst2 e he
      unfold citeRefStep at he
      cases ht : refTarget score (rows.map (fun r => normalizeText r.title)) threshold
          (normalizeText ref) with
      | none =>
        rw [ht] at he
        exact hst2 e he
      | some tgt =>
        rw [ht] at he
        dsimp only at he
        rcases List.mem_append.1 he with h' | h'
        · exact hst2 e h'
        · have : e = (ir.1, tgt) := List.mem_singleton.1 h'
          subst this
          refine ⟨hidx, ?_⟩
          have := refTarget_lt score _ threshold (normalizeText ref) tgt ht
          simpa using this

/-- Membership in the pruned node list. -/
theorem mem_prunedNodes (n : Nat) (es1 : List (Nat × Nat)) (v : Nat) :
    v ∈ prunedNodes n es1 ↔ v < n ∧ ∃ e ∈ es1, e.1 = v ∨ e.2 = v := by
  unfold prunedNodes
  simp [List.mem_filter, List.any_eq_true]

/-- Endpoints of surviving edges are surviving nodes. -/
theorem citationEdges1_endpoints (score : PyStr → PyStr → Nat) (rows : List CRow)
    (threshold : Nat) :
    ∀ e ∈ citationEdges1 score rows threshold,
      e.1 ∈ citationNodes1 score rows threshold ∧
        e.2 ∈ citationNodes1 score rows threshold := by
  intro e he
  have he' := List.mem_filter.1 he
  have hlt := citationRaw_edges_lt score rows threshold e he'.1
  unfold citationNodes1
  constructor
  · exact (mem_prunedNodes _ _ _).2 ⟨hlt.1, e, he, Or.inl rfl⟩
  · exact (mem_prunedNodes _ _ _).2 ⟨hlt.2, e, he, Or.inr rfl⟩

/-- Symmetrized membership swaps endpoints. -/
theorem mem_symEdges {α : Type} (edges : List (α × α)) (a b : α) :
    (a, b) ∈ symEdges edges ↔ (a, b) ∈ edges ∨ (b, a) ∈ edges := by
  unfold symEdges
  rw [List.mem_append]
  constructor
  · rintro (h | h)
    · exact Or.inl h
    · rcases List.mem_map.1 h with ⟨e, he, hab⟩
      obtain ⟨x, y⟩ := e
      obtain ⟨rfl, rfl⟩ : y = a ∧ x = b :=
        ⟨congrArg Prod.fst hab, congrArg Prod.snd hab⟩
      exact Or.inr he
  · rintro (h | h)
    · exact Or.inl h
    · exact Or.inr (List.mem_map.2 ⟨(b, a), h, rfl⟩)

/-- Membership after one reachability step. -/
theorem mem_reachStep {α : Type} [DecidableEq α] (edges : List (α × α))
    (acc : List α) (x : α) :
    x ∈ reachStep edges acc ↔ x ∈ acc ∨ ∃ u ∈ acc, x ∈ succsOf edges u := by
  unfold reachStep
  simp [List.mem_dedup, List.mem_append, List.mem_flatMap]

/-- Iterated reachability is function iteration of the step. -/
theorem reachIter_eq_iterate {α : Type} [DecidableEq α] (edges : List (α × α)) :
    ∀ (n : Nat) (acc : List α), reachIter edges n acc = (reachStep edges)^[n] acc := by
  intro n
  induction n with
  | zero => intro acc; rfl
  | succ m ih =>
    intro acc
    rw [reachIter, ih, ← Function.iterate_succ_apply]

/-- One step preserves membership-equivalence of accumulators. -/
theorem reachStep_congr {α : Type} [DecidableEq α] (edges : List (α × α))
    (a b : List α) (h : ∀ x, x ∈ a ↔ x ∈ b) :
    ∀ x, x ∈ reachStep edges a ↔ x ∈ reachStep edges b := by
  intro x
  rw [mem_reachStep, mem_reachStep]
  constructor
  · rintro (hx | ⟨u, hu, hx⟩)
    · exact Or.inl ((h x).1 hx)
    · exact Or.inr ⟨u, (h u).1 hu, hx⟩
  · rintro (hx | ⟨u, hu, hx⟩)
    · exact Or.inl ((h x).2 hx)
    · exact Or.inr ⟨u, (h u).2 hu, hx⟩

/-- The reachability set of a seed node inside a closed universe is closed
under taking successors after as many steps as the universe has elements. -/
theorem reachIter_saturates {α : Type} [DecidableEq α] (edges : List (α × α))
    (U : List α) (v : α) (hvU : v ∈ U)
    (hU : ∀ e ∈ edges, e.2 ∈ U) :
    ∀ x ∈ reachStep edges (reachIter edges U.length [v]),
      x ∈ reachIter edges U.length [v] := by
  have hP : ∀ k, reachIter edges k [v] = (reachStep edges)^[k] [v] :=
    fun k => reachIter_eq_iterate edges k [v]
  set P : Nat → List α := fun k => (reachStep edges)^[k] [v] with hPdef
  have hsucc : ∀ k, P (k + 1) = reachStep edges (P k) := by
    intro k
    simp only [hPdef, Function.iterate_succ_apply']
  have hgrow : ∀ k, ∀ x ∈ P k, x ∈ P (k + 1) := by
    intro k x hx
    rw [hsucc k]
    exact (mem_reachStep edges _ x).2 (Or.inl hx)
  have hnodup : ∀ k, (P k).Nodup := by
    intro k
    cases k with
    | zero => simp [hPdef]
    | succ m =>
      rw [hsucc m]
      exact List.nodup_dedup _
  have hsubU : ∀ k, ∀ x ∈ P k, x ∈ U := by
    intro k
    induction k with
    | zero =>
      intro x hx
      simp only [hPdef, Function.iterate_zero, id] at hx
      rw [List.mem_singleton.1 hx]
      exact hvU
    | succ m ih =>
      intro x hx
      rw [hsucc m] at hx
      rcases (mem_reachStep edges _ x).1 hx with h | ⟨u, _, hxu⟩
      · exact ih x h
      · exact hU (u, x) ((mem_succsOf edges u x).1 hxu)
  have hbound : ∀ k, (P k).length ≤ U.length := by
    intro k
    exact (List.Nodup.subperm (hnodup k) (fun x hx => hsubU k x hx)).length_le
  have hstrict : ∀ k, (∃ x ∈ reachStep edges (P k), x ∉ P k) →
      (P k).length < (P (k + 1)).length := by
    intro k ⟨x, hxs, hxn⟩
    have hsp : (P k).Subperm (P (k + 1)) :=
      List.Nodup.subperm (hnodup k) (fun y hy => hgrow k y hy)
    rcases lt_or_le (P k).length (P (k + 1)).length with h | h
    · exact h
    · exfalso
      have hperm := hsp.perm_of_length_le h
      apply hxn
      rw [hperm.mem_iff]
      rw [hsucc k] at *
      exact hxs
  have hprop : ∀ k, (∀ x ∈ reachStep edges (P k), x ∈ P k) →
      (∀ x ∈ reachStep edges (P (k + 1)), x ∈ P (k + 1)) := by
    intro k hcl
    have hiff : ∀ x, x ∈ P (k + 1) ↔ x ∈ P k := by
      intro x
      rw [hsucc k]
      exact ⟨fun hx => hcl x hx, fun hx => (mem_reachStep edges _ x).2 (Or.inl hx)⟩
    intro x hx
    rw [hsucc k]
    have := (reachStep_congr edges _ _ hiff x).1 hx
    exact (mem_reachStep edges _ x).2 (Or.inl (hcl x this))
  have hup : ∀ (j m : Nat), (∀ x ∈ reachStep edges (P j), x ∈ P j) →
      (∀ x ∈ reachStep edges (P (j + m)), x ∈ P (j + m)) := by
    intro j m
    induction m with
    | zero => intro h; exact h
    | succ i ih => intro h; exact hprop (j + i) (ih h)
  have hlen : ∀ k, (∀ j, j < k → ¬ (∀ x ∈ reachStep edges (P j), x ∈ P j)) →
      k + 1 ≤ (P k).length := by
    intro k
    induction k with
    | zero =>
      intro _
      have : P 0 = [v] := by simp [hPdef]
      simp [this]
    | succ m ih =>
      intro h
      have hm := ih (fun j hj => h j (by omega))
      have hncl := h m (by omega)
      push_neg at hncl
      have := hstrict m hncl
      omega
  have hex : ∃ j, j ≤ U.length ∧ (∀ x ∈ reachStep edges (P j), x ∈ P j) := by
    by_contra hno
    push_neg at hno
    have h1 := hlen (U.length + 1) (fun j hj hcl => by
      rcases hno j (by omega) with ⟨x, hxs, hxn⟩
      exact hxn (hcl x hxs))
    have h2 := hbound (U.length + 1)
    omega
  obtain ⟨j, hj, hcl⟩ := hex
  have := hup j (U.length - j) hcl
  rw [Nat.add_sub_cancel' hj] at this
  intro x hx
  rw [hP U.length] at hx ⊢
  exact this x hx

/-- A weakly-connected component is closed under incident symmetrized
edges. -/
theorem ucompOf_closed {α : Type} [DecidableEq α] (g : SGraph α) (w : α)
    (hU : ∀ e ∈ symEdges g.edges, e.2 ∈ g.nodes) (hw : w ∈ g.nodes) :
    ∀ v ∈ ucompOf g w, ∀ x, (v, x) ∈ symEdges g.edges → x ∈ ucompOf g w := by
  intro v hv x hvx
  have hv' := List.mem_filter.1 hv
  have hreach : v ∈ reachIter (symEdges g.edges) g.nodes.length [w] := by
    have := hv'.2
    simpa [reaches] using this
  have hxstep : x ∈ reachStep (symEdges g.edges)
      (reachIter (symEdges g.edges) g.nodes.length [w]) :=
    (mem_reachStep _ _ x).2 (Or.inr ⟨v, hreach, (mem_succsOf _ v x).2 hvx⟩)
  have hxin := reachIter_saturates (symEdges g.edges) g.nodes w hw hU x hxstep
  refine List.mem_filter.2 ⟨hU (v, x) hvx, ?_⟩
  simpa [reaches] using hxin

/-- The fold picking a longest image is a maximum over the images. -/
theorem foldl_longest_image_spec {β γ : Type} (f : γ → List β) :
    ∀ (l : List γ) (b : List β),
      (l.foldl (fun best v => if best.length < (f v).length then f v else best) b = b
        ∨ ∃ w ∈ l, l.foldl (fun best v => if best.length < (f v).length then f v else best) b = f w)
      ∧ ∀ v ∈ l, (f v).length
          ≤ (l.foldl (fun best v => if best.length < (f v).length then f v else best) b).length := by
  have hgrow : ∀ (l : List γ) (b : List β),
      b.length ≤ (l.foldl (fun best v => if best.length < (f v).length then f v else best) b).length := by
    intro l
    induction l with
    | nil => intro b; exact le_refl _
    | cons v t ih =>
      intro b
      rw [List.foldl_cons]
      by_cases h : b.length < (f v).length
      · rw [if_pos h]; exact le_trans (le_of_lt h) (ih (f v))
      · rw [if_neg h]; exact ih b
  intro l
  induction l with
  | nil =>
    intro b
    exact ⟨Or.inl rfl, fun v hv => absurd hv (List.not_mem_nil v)⟩
  | cons u t ih =>
    intro b
    rw [List.foldl_cons]
    by_cases h : b.length < (f u).length
    · rw [if_pos h]
      rcases ih (f u) with ⟨hmem, hall⟩
      refine ⟨?_, ?_⟩
      · rcases hmem with he | ⟨w, hw, hfw⟩
        · exact Or.inr ⟨u, List.mem_cons_self _ _, he⟩
        · exact Or.inr ⟨w, List.mem_cons_of_mem _ hw, hfw⟩
      · intro v hv
        rcases List.mem_cons.1 hv with rfl | hv'
        · exact hgrow t (f v)
        · exact hall v hv'
    · rw [if_neg h]
      rcases ih b with ⟨hmem, hall⟩
      refine ⟨?_, ?_⟩
      · rcases hmem with he | ⟨w, hw, hfw⟩
        · exact Or.inl he
        · exact Or.inr ⟨w, List.mem_cons_of_mem _ hw, hfw⟩
      · intro v hv
        rcases List.mem_cons.1 hv with rfl | hv'
        · exact le_trans (le_of_not_lt h) (hgrow t b)
        · exact hall v hv'

/-- The largest weakly-connected component is a component of maximal size. -/
theorem largestComp_spec {α : Type} [DecidableEq α] (g : SGraph α) :
    (largestComp g = [] ∨ ∃ w ∈ g.nodes, largestComp g = ucompOf g w) ∧
      ∀ v ∈ g.nodes, (ucompOf g v).length ≤ (largestComp g).length :=
  foldl_longest_image_spec (ucompOf g) g.nodes []

/-- Distinct row indices carry distinct Doc IDs when the Doc ID column has
no duplicates. -/
theorem docIdOf_inj (rows : List CRow)
    (hnd : (rows.map (fun r => r.docId)).Nodup) :
    ∀ a b, a < rows.length → b < rows.length →
      docIdOf rows a = docIdOf rows b → a = b := by
  intro a b ha hb heq
  have hga : rows.get? a = some (rows.get ⟨a, ha⟩) := List.get?_eq_get ha
  have hgb : rows.get? b = some (rows.get ⟨b, hb⟩) := List.get?_eq_get hb
  have hda : docIdOf rows a = (rows.get ⟨a, ha⟩).docId := by
    unfold docIdOf
    rw [hga]
    rfl
  have hdb : docIdOf rows b = (rows.get ⟨b, hb⟩).docId := by
    unfold docIdOf
    rw [hgb]
    rfl
  rw [hda, hdb] at heq
  have hla : a < (rows.map (fun r => r.docId)).length := by simpa using ha
  have hlb : b < (rows.map (fun r => r.docId)).length := by simpa using hb
  have hgeta : (rows.map (fun r => r.docId)).get ⟨a, hla⟩ = (rows.get ⟨a, ha⟩).docId :=
    List.get_map _
  have hgetb : (rows.map (fun r => r.docId)).get ⟨b, hlb⟩ = (rows.get ⟨b, hb⟩).docId :=
    List.get_map _
  have := (List.Nodup.get_inj_iff hnd).1 (hgeta.trans (heq.trans hgetb.symm))
  have h2 := congrArg Fin.val this
  simpa using h2

/-- The kept node and edge lists refine the pruned graph. -/
theorem citationKeep_sub (score : PyStr → PyStr → Nat) (rows : List CRow)
    (threshold : Nat) (largestOnly : Bool) :
    (∀ i ∈ (citationKeep score rows threshold largestOnly).1,
      i ∈ citationNodes1 score rows threshold) ∧
    (∀ e ∈ (citationKeep score rows threshold largestOnly).2,
      e ∈ citationEdges1 score rows threshold) := by
  unfold citationKeep
  split
  · exact ⟨fun i hi => (List.mem_filter.1 hi).1, fun e he => (List.mem_filter.1 he).1⟩
  · exact ⟨fun i hi => hi, fun e he => he⟩

/-- C5 (amended): every graph returned by `build_citation_network` has no
self-loops (Doc IDs being unique) and no isolated nodes; with
`largest_only=True` its node set lies inside a largest weakly-connected
component of the pruned citation graph; and the returned unmatched mapping
reports, keyed by citing Doc ID, exactly the unmatched reference lists of
the citing documents that survive pruning — documents removed as isolated
or outside the largest component are dropped from it, not reported. -/
theorem c5_citation_network (score : PyStr → PyStr → Nat) (rows : List CRow)
    (threshold : Nat) (largestOnly : Bool)
    (hinj : (rows.map (fun r => r.docId)).Nodup) :
    (∀ e ∈ (buildCitationNetwork score rows threshold largestOnly).1.edges,
      e.1 ≠ e.2) ∧
    (∀ v ∈ (buildCitationNetwork score rows threshold largestOnly).1.nodes,
      ∃ e ∈ (buildCitationNetwork score rows threshold largestOnly).1.edges,
        e.1 = v ∨ e.2 = v) ∧
    (largestOnly = true →
      ∀ v ∈ (buildCitationNetwork score rows threshold largestOnly).1.nodes,
        v ∈ (largestComp (citationG1 score rows threshold)).map (docIdOf rows)) ∧
    (∀ w ∈ citationNodes1 score rows threshold,
      (ucompOf (citationG1 score rows threshold) w).length
        ≤ (largestComp (citationG1 score rows threshold)).length) ∧
    (∀ p ∈ (buildCitationNetwork score rows threshold largestOnly).2,
      ∃ i, i ∈ (citationKeep score rows threshold largestOnly).1 ∧
        docIdOf rows i = p.1 ∧ (i, p.2) ∈ (citationRaw score rows threshold).2) ∧
    (∀ q ∈ (citationRaw score rows threshold).2,
      q.1 ∈ (citationKeep score rows threshold largestOnly).1 →
        (docIdOf rows q.1, q.2)
          ∈ (buildCitationNetwork score rows threshold largestOnly).2) := by
  have hkeep := citationKeep_sub score rows threshold largestOnly
  have hend := citationEdges1_endpoints score rows threshold
  have hUsym : ∀ e ∈ symEdges (citationEdges1 score rows threshold),
      e.2 ∈ citationNodes1 score rows threshold := by
    rintro ⟨a, b⟩ he
    rcases (mem_symEdges _ a b).1 he with h | h
    · exact (hend (a, b) h).2
    · exact (hend (b, a) h).1
  have hcomp_closed : ∀ i u, i ∈ largestComp (citationG1 score rows threshold) →
      (i, u) ∈ symEdges (citationEdges1 score rows threshold) →
      u ∈ largestComp (citationG1 score rows threshold) := by
    intro i u hi hiu
    rcases (largestComp_spec (citationG1 score rows threshold)).1 with he | ⟨w, hw, hcw⟩
    · rw [he] at hi
      exact absurd hi (List.not_mem_nil i)
    · rw [hcw] at hi ⊢
      exact ucompOf_closed (citationG1 score rows threshold) w hUsym hw i hi u hiu
  refine ⟨?_, ?_, ?_, ?_, ?_, ?_⟩
  · -- no self-loops
    intro e he
    have he' : e ∈ (citationKeep score rows threshold largestOnly).2.map
        (fun e => (docIdOf rows e.1, docIdOf rows e.2)) := he
    rcases List.mem_map.1 he' with ⟨⟨a, b⟩, hab, rfl⟩
    have hab1 := hkeep.2 (a, b) hab
    have habf := List.mem_filter.1 hab1
    have hne : ¬ a = b := by simpa using habf.2
    have hlt := citationRaw_edges_lt score rows threshold (a, b) habf.1
    intro hdeq
    exact hne (docIdOf_inj rows hinj a b hlt.1 hlt.2 hdeq)
  · -- no isolated nodes
    intro v hv
    have hv' : v ∈ (citationKeep score rows threshold largestOnly).1.map
        (docIdOf rows) := hv
    rcases List.mem_map.1 hv' with ⟨i, hi, rfl⟩
    have hi1 := hkeep.1 i hi
    rcases (mem_prunedNodes _ _ i).1 hi1 with ⟨_, e, he, hor⟩
    have hkeep2 : e ∈ (citationKeep score rows threshold largestOnly).2 := by
      unfold citationKeep at hi ⊢
      split at hi
      · rename_i hcond
        rw [if_pos hcond]
        have hicomp : i ∈ largestComp (citationG1 score rows threshold) := by
          simpa using (List.mem_filter.1 hi).2
        have hother : e.1 ∈ largestComp (citationG1 score rows threshold) ∧
            e.2 ∈ largestComp (citationG1 score rows threshold) := by
          rcases hor with h1 | h2
          · refine ⟨h1 ▸ hicomp, ?_⟩
            refine hcomp_closed i e.2 hicomp ?_
            have : (e.1, e.2) ∈ citationEdges1 score rows threshold := by
              simpa using he
            exact (mem_symEdges _ i e.2).2 (Or.inl (by rw [h1] at this; exact this))
          · refine ⟨?_, h2 ▸ hicomp⟩
            refine hcomp_closed i e.1 hicomp ?_
            have : (e.1, e.2) ∈ citationEdges1 score rows threshold := by
              simpa using he
            exact (mem_symEdges _ i e.1).2 (Or.inr (by rw [h2] at this; exact this))
        refine List.mem_filter.2 ⟨he, ?_⟩
        simpa using hother
      · rename_i hcond
        rw [if_neg hcond]
        exact he
    refine ⟨(docIdOf rows e.1, docIdOf rows e.2), ?_, ?_⟩
    · exact List.mem_map.2 ⟨e, hkeep2, rfl⟩
    · rcases hor with h1 | h2
      · exact Or.inl (congrArg (docIdOf rows) h1)
      · exact Or.inr (congrArg (docIdOf rows) h2)
  · -- containment in a largest component
    intro hlo v hv
    have hv' : v ∈ (citationKeep score rows threshold largestOnly).1.map
        (docIdOf rows) := hv
    rcases List.mem_map.1 hv' with ⟨i, hi, rfl⟩
    unfold citationKeep at hi
    by_cases hcond : largestOnly = true ∧
        ¬ citationNodes1 score rows threshold = []
    · rw [if_pos hcond] at hi
      have hicomp : i ∈ largestComp (citationG1 score rows threshold) := by
        simpa using (List.mem_filter.1 hi).2
      exact List.mem_map.2 ⟨i, hicomp, rfl⟩
    · rw [if_neg hcond] at hi
      have hns : citationNodes1 score rows threshold = [] := by
        by_contra hne
        exact hcond ⟨hlo, hne⟩
      rw [hns] at hi
      exact absurd hi (List.not_mem_nil i)
  · -- maximality of the chosen component
    intro w hw
    exact (largestComp_spec (citationG1 score rows threshold)).2 w hw
  · -- reported unmatched entries come from surviving citing rows
    intro p hp
    have hp' : p ∈ (citationRaw score rows threshold).2.filterMap (fun q =>
        if q.1 ∈ (citationKeep score rows threshold largestOnly).1
        then some (docIdOf rows q.1, q.2) else none) := hp
    rcases List.mem_filterMap.1 hp' with ⟨q, hq, hsome⟩
    by_cases hqk : q.1 ∈ (citationKeep score rows threshold largestOnly).1
    · rw [if_pos hqk] at hsome
      have h1 : docIdOf rows q.1 = p.1 := congrArg Prod.fst (Option.some.inj hsome)
      have h2 : q.2 = p.2 := congrArg Prod.snd (Option.some.inj hsome)
      exact ⟨q.1, hqk, h1, by
        have : (q.1, q.2) = (q.1, p.2) := by rw [h2]
        exact this ▸ hq⟩
    · rw [if_neg hqk] at hsome
      exact absurd hsome (by simp)
  · -- surviving citing rows with unmatched references are reported
    intro q hq hqk
    show (docIdOf rows q.1, q.2) ∈ (citationRaw score rows threshold).2.filterMap
      (fun q => if q.1 ∈ (citationKeep score rows threshold largestOnly).1
        then some (docIdOf rows q.1, q.2) else none)
    refine List.mem_filterMap.2 ⟨q, hq, ?_⟩
    rw [if_pos hqk]

/-- Counterexample for C5 as stated: the single document's reference «zzz»
matches no title (the raw pass records it), yet the returned unmatched
mapping is empty — the reference is discarded silently because the citing
document is pruned as isolated. -/
theorem c5_citation_network_counterexample :
    (citationRaw score0 exRows5 90).2 = [(0, ["zzz".toList])] ∧
      (buildCitationNetwork score0 exRows5 90 true).2 = [] := by
  constructor
  · decide
  · decide

/-- Witness for C5 on the two-document table where document «a» cites
document «b» by exact normalized-title match. -/
theorem c5_citation_network_witness :
    (exRows5b.map (fun r => r.docId)).Nodup ∧
      ∀ e ∈ (buildCitationNetwork score0 exRows5b 90 true).1.edges, e.1 ≠ e.2 :=
  ⟨by decide, (c5_citation_network score0 exRows5b 90 true (by decide)).1⟩
